import Mathlib

/-!
Shallow embedding of the `taskkit` workflow engine of `homelab-task-go`.

The definitions below are translated from the Go sources:

* `pkg/taskkit/models.go` — `Message`, `StepInput`, `StepResult` (with
  `HasErrors`, `Skip`), `StepExec`, severity constants;
* the workflow file (`WorkflowDefinition`, `WorkflowStep`, `GetHandlerName`,
  `GetExecutionOrder`, `GetRetries`);
* the local runner file (`LocalRunner.Run`, `LocalRunner.executeStep`,
  `mergeParams`).

Modelling conventions:

* Go `any` values are modelled by the inductive `GoVal`; `map[string]any`
  by an association list `GoMap` whose read (`getVal`) returns the last
  binding (assignment `mapSet` overwrites in place, so the list always
  denotes the Go map contents).
* Go `int` is modelled by `Int`.
* Wall-clock fields (`Timestamp`, `Duration`, `StartTime`, `EndTime`) and
  logging are dropped: no claim is about real time.
* The step-handler registry (`registry.go`) is modelled as an explicit
  parameter `registry : String → Option StepHandler` (the Go code reads a
  process-wide map through `Get`).
* Go iterates the `inDegree` map with `for name, degree := range inDegree`
  when seeding the ready queue of `GetExecutionOrder`; Go's map iteration
  order is arbitrary (deliberately randomized).  The embedding makes that
  hidden choice explicit as a parameter `seedOrder : List String`; a list
  is a possible Go iteration sequence exactly when it enumerates the key
  set of the map without repetition, captured by `SeedOk`.
* `executeStep` additionally returns the list of `StepInput` values passed
  to the handler, in call order (`calls`); this ghost trace records the
  handler invocations and does not influence the computed results.
-/

namespace Taskkit

/-- Model of a Go `any` value as used by the engine: the engine itself only
inspects booleans (the `skip` directive) and strings (the skip reason); all
other payloads are uninterpreted data carried along. -/
inductive GoVal where
  | vBool (b : Bool)
  | vInt (n : Int)
  | vStr (s : String)
  | vNull
  deriving DecidableEq

/-- Model of Go `map[string]any` as an association list; see `getVal` and
`mapSet` for the read/write semantics. -/
abbrev GoMap := List (String × GoVal)

/-- Go map read `m[k]` (without the `ok` flag): the last binding for `k`
wins, mirroring that Go assignment overwrites; `none` models the absent
key (Go would give the zero value). -/
def getVal : GoMap → String → Option GoVal
  | [], _ => none
  | kv :: rest, k =>
      match getVal rest k with
      | some v => some v
      | none => if kv.1 = k then some kv.2 else none

/-- Whether the map holds a binding for `k`. -/
def hasKey (m : GoMap) (k : String) : Bool :=
  m.any (fun kv => kv.1 == k)

/-- Go map assignment `m[k] = v`: replace the binding if the key is
present, otherwise add one. -/
def mapSet (m : GoMap) (k : String) (v : GoVal) : GoMap :=
  if hasKey m k then m.map (fun kv => if kv.1 == k then (k, v) else kv)
  else m ++ [(k, v)]

/-- Go `for k, v := range u { m[k] = v }` (the context/param merge loops of
the runner). -/
def applyUpdates (m : GoMap) (u : GoMap) : GoMap :=
  u.foldl (fun acc kv => mapSet acc kv.1 kv.2) m

/-- models.go `SeverityError` (the only severity the engine inspects). -/
def SeverityError : String := "ERROR"

/-- models.go `Message` (the `Timestamp` field is dropped: wall clock). -/
structure Message where
  severity : String
  text : String
  system : String
  deriving DecidableEq

/-- models.go `StepInput` (`WorkflowResult` is never set by the runner and
is dropped). -/
structure StepInput where
  stepName : String
  taskID : String
  workflowName : String
  attempt : Int
  totalRetries : Int
  params : GoMap
  vars : GoMap
  deriving DecidableEq

/-- models.go `StepResult`; the defaults are the Go zero value (nil slices
and maps). -/
structure StepResult where
  messages : List Message := []
  contextUpdates : GoMap := []
  output : GoMap := []
  flowControl : GoMap := []
  deriving DecidableEq

/-- models.go `StepResult.HasErrors`: true iff some message has error
severity. -/
def StepResult.HasErrors (r : StepResult) : Bool :=
  r.messages.any (fun m => m.severity == SeverityError)

/-- models.go `StepResult.Skip(reason)`: sets the two flow-control keys. -/
def StepResult.Skip (r : StepResult) (reason : String) : StepResult :=
  { r with flowControl :=
      mapSet (mapSet r.flowControl "skip" (GoVal.vBool true)) "skip_reason" (GoVal.vStr reason) }

/-- The runner's skip test: `skip, ok := FlowControl["skip"].(bool); ok && skip`.
A missing key or a non-boolean value gives `ok = false`. -/
def isSkipSet (r : StepResult) : Bool :=
  getVal r.flowControl "skip" == some (GoVal.vBool true)

/-- The runner's skip-reason read: `FlowControl["skip_reason"].(string)`,
defaulting to the empty string when absent or not a string. -/
def skipReasonOf (r : StepResult) : String :=
  match getVal r.flowControl "skip_reason" with
  | some (GoVal.vStr s) => s
  | _ => ""

/-- models.go `StepExec` (`Duration` dropped: wall clock).  `status` is a
plain string whose Go zero value is `""`, exactly as in the source. -/
structure StepExec where
  name : String
  handler : String
  status : String := ""
  messages : List Message := []
  output : GoMap := []
  error : String := ""
  deriving DecidableEq

/-- registry.go `StepHandler` (the `Deps` argument only carries a work
directory and a logger, which the engine never inspects; it is dropped). -/
abbrev StepHandler := StepInput → StepResult

/-- workflow template constants. -/
def TemplateInit : String := "init"

/-- workflow template constant `action`. -/
def TemplateAction : String := "action"

/-- workflow template constant `finalize`. -/
def TemplateFinalize : String := "finalize"

/-- workflow `WorkflowStep`. -/
structure WorkflowStep where
  name : String
  depends : List String := []
  template : String := ""
  params : GoMap := []
  retries : Int := 0
  deriving DecidableEq

/-- workflow `WorkflowDefinition` (fields not read by the engine —
description, timeout — are dropped; `handlerPref` models the Go field
`HandlerPrefix`). -/
structure WorkflowDefinition where
  name : String
  platform : String := ""
  handlerPref : String := ""
  steps : List WorkflowStep := []
  defaultRetries : Int := 0
  deriving DecidableEq

/-- workflow `GetHandlerName`. -/
def GetHandlerName (w : WorkflowDefinition) (step : WorkflowStep) : String :=
  if w.handlerPref ≠ "" then w.handlerPref ++ "-" ++ step.name
  else w.platform ++ "-" ++ step.name

/-- workflow `GetRetries`. -/
def GetRetries (w : WorkflowDefinition) (step : WorkflowStep) : Int :=
  if step.retries > 0 then step.retries
  else if w.defaultRetries > 0 then w.defaultRetries
  else 0

/-- The names of the workflow's steps, in declaration order. -/
def stepNames (w : WorkflowDefinition) : List String :=
  w.steps.map WorkflowStep.name

/-- Go `stepMap[x]` where `stepMap` was filled by iterating the steps and
assigning `stepMap[step.Name] = step` (a later duplicate overwrites an
earlier one, hence the last match wins). -/
def lookupLast : List WorkflowStep → String → Option WorkflowStep
  | [], _ => none
  | s :: rest, x =>
      match lookupLast rest x with
      | some t => some t
      | none => if s.name = x then some s else none

/-- `stepMap` lookup for the workflow. -/
def stepMapLookup (w : WorkflowDefinition) (x : String) : Option WorkflowStep :=
  lookupLast w.steps x

/-- The dependency list of the step registered under name `x` (empty when
no step has this name: the Go zero value of a missing map key). -/
def stepDepends (w : WorkflowDefinition) (x : String) : List String :=
  match stepMapLookup w x with
  | some s => s.depends
  | none => []

/-- The initial `inDegree` map: `inDegree[step.Name] = len(step.Depends)`
taken over all steps, later assignments overwriting earlier ones; `0` for
names not present (missing Go map key). -/
def inDeg0 (w : WorkflowDefinition) (x : String) : Int :=
  ((stepDepends w x).length : Int)

/-- One occurrence of `x` in `dependentsList p steps` per occurrence of `p`
in a step's dependency list, in step order — exactly the Go construction
`dependents[dep] = append(dependents[dep], step.Name)`. -/
def dependentsList (p : String) : List WorkflowStep → List String
  | [] => []
  | s :: rest =>
      ((s.depends.filter (fun d => d == p)).map (fun _ => s.name)) ++ dependentsList p rest

/-- The `dependents[p]` list of the workflow. -/
def dependentsOf (w : WorkflowDefinition) (p : String) : List String :=
  dependentsList p w.steps

/-- The referential validation scan of `GetExecutionOrder`: the first
`(step, dep)` pair, in declaration order, whose dependency name is not a
step name. -/
def findUnknownDep (names : List String) : List WorkflowStep → Option (String × String)
  | [] => none
  | s :: rest =>
      match s.depends.find? (fun d => !(names.contains d)) with
      | some d => some (s.name, d)
      | none => findUnknownDep names rest

/-- One iteration of the inner dependent-processing loop of Kahn's
algorithm: decrement the in-degree of the dependent and enqueue it when the
new value is zero. -/
def degStep (st : (String → Int) × List String) (dpt : String) : (String → Int) × List String :=
  let d := st.1 dpt - 1
  (fun y => if y = dpt then d else st.1 y, if d = 0 then st.2 ++ [dpt] else st.2)

/-- The Go zero value of `WorkflowStep` (what `stepMap[name]` yields for a
missing key). -/
def zeroStep : WorkflowStep :=
  { name := "", depends := [], template := "", params := [], retries := 0 }

/-- The main loop of Kahn's algorithm: pop the queue head, append its step
to the order, decrement its dependents.  The Go loop runs while the queue
is nonempty; `fuel` is an upper bound on the number of iterations (proved
sufficient below: every name is enqueued at most once, so `steps.length`
iterations never run out). -/
def kahnLoop (w : WorkflowDefinition) :
    Nat → List String → (String → Int) → List WorkflowStep → List WorkflowStep
  | 0, _, _, order => order
  | _ + 1, [], _, order => order
  | fuel + 1, p :: rest, inDeg, order =>
      let s := (stepMapLookup w p).getD zeroStep
      let st := (dependentsOf w p).foldl degStep (inDeg, rest)
      kahnLoop w fuel st.2 st.1 (order ++ [s])

/-- The structured form of the two resolution errors of
`GetExecutionOrder` (the Go code formats them as strings; the unknown
dependency error names both the dependent step and the missing name). -/
inductive ResolveError where
  | unknownDep (stepName depName : String)
  | cycle
  deriving DecidableEq

/-- The Go error strings. -/
def ResolveError.message : ResolveError → String
  | .unknownDep s d => "step \"" ++ s ++ "\" depends on unknown step \"" ++ d ++ "\""
  | .cycle => "workflow contains a dependency cycle"

/-- workflow `GetExecutionOrder`, with the Go map iteration order of the
queue-seeding loop made explicit as `seedOrder` (see the header comment). -/
def GetExecutionOrder (w : WorkflowDefinition) (seedOrder : List String) :
    Except ResolveError (List WorkflowStep) :=
  match findUnknownDep (stepNames w) w.steps with
  | some sd => .error (.unknownDep sd.1 sd.2)
  | none =>
      let queue0 := seedOrder.filter (fun n => inDeg0 w n == 0)
      let order := kahnLoop w w.steps.length queue0 (inDeg0 w) []
      if order.length = w.steps.length then .ok order else .error .cycle

/-- A list is a possible Go iteration sequence of the `inDegree` map's keys
iff it enumerates the key set (the set of step names) without repetition. -/
def SeedOk (w : WorkflowDefinition) (seed : List String) : Prop :=
  seed.Nodup ∧ (∀ n ∈ seed, n ∈ stepNames w) ∧ (∀ n ∈ stepNames w, n ∈ seed)

instance (w : WorkflowDefinition) (seed : List String) : Decidable (SeedOk w seed) := by
  unfold SeedOk; infer_instance

/-- The direct dependency relation of the workflow: `dependsOn w x y` iff
some step named `x` declares the dependency `y`. -/
def dependsOn (w : WorkflowDefinition) (x y : String) : Prop :=
  ∃ s, s ∈ w.steps ∧ s.name = x ∧ y ∈ s.depends

/-- The workflow's dependency relation is acyclic: no name depends on
itself through a chain of declared dependencies. -/
def Acyclic (w : WorkflowDefinition) : Prop :=
  ∀ x, ¬ Relation.TransGen (dependsOn w) x x

/-- A step list is a valid topological order: every declared dependency of
the step at index `i` occurs (as a step name) at a smaller index. -/
def respectsDeps (l : List WorkflowStep) : Prop :=
  ∀ i : Nat, ∀ hi : i < l.length, ∀ d ∈ (l.get ⟨i, hi⟩).depends,
    ∃ j : Nat, ∃ hj : j < l.length, j < i ∧ (l.get ⟨j, hj⟩).name = d

/-- The number of dependencies of the step named `x` that are not yet in
the processed-name list `P` — the value the `inDegree` map holds for `x`
throughout the Kahn loop (proof infrastructure). -/
def remDeg (w : WorkflowDefinition) (P : List String) (x : String) : Int :=
  (((stepDepends w x).filter (fun d => decide (d ∉ P))).length : Int)

/-- The invariant of the Kahn loop state (proof infrastructure): the
processed order consists of genuine registered steps without repetition,
the queue holds distinct unprocessed step names of in-degree zero, the
in-degree map counts unprocessed dependencies, names of in-degree zero are
queued or processed, and the processed front is a valid topological
order whose dependencies are all processed. -/
def KInv (w : WorkflowDefinition) (queue : List String) (inDeg : String → Int)
    (order : List WorkflowStep) : Prop :=
  (∀ s ∈ order, stepMapLookup w s.name = some s) ∧
  (∀ x ∈ queue, x ∈ stepNames w) ∧
  queue.Nodup ∧
  (order.map WorkflowStep.name).Nodup ∧
  (∀ x ∈ queue, x ∉ order.map WorkflowStep.name) ∧
  (∀ x, inDeg x = remDeg w (order.map WorkflowStep.name) x) ∧
  (∀ x ∈ queue, inDeg x = 0) ∧
  (∀ x ∈ stepNames w, inDeg x = 0 → x ∈ queue ∨ x ∈ order.map WorkflowStep.name) ∧
  (∀ s ∈ order, ∀ d ∈ s.depends, d ∈ order.map WorkflowStep.name) ∧
  respectsDeps order

/-- runner `mergeParams`: a fresh map filled with the run-level parameters
and then overlaid with the step-local ones. -/
def mergeParams (runParams stepParams : GoMap) : GoMap :=
  applyUpdates (applyUpdates [] runParams) stepParams

/-- The `StepInput` the runner builds before the retry loop (attempt `1`;
`TotalRetries` is set from `GetRetries`, and `Vars` is the runner's current
shared context). -/
def stepBaseInput (w : WorkflowDefinition) (taskID : String) (runParams : GoMap)
    (vars : GoMap) (step : WorkflowStep) : StepInput :=
  { stepName := step.name
    taskID := taskID
    workflowName := w.name
    attempt := 1
    totalRetries := GetRetries w step
    params := mergeParams runParams step.params
    vars := vars }

/-- `input.Attempt = attempt` before the handler call of attempt `a`. -/
def attemptInput (base : StepInput) (a : Nat) : StepInput :=
  { base with attempt := (a : Int) }

/-- The state of `executeStep` when its retry loop exits: the status and
error text written to the record, the last attempt's outcome
(`stepResult` after the loop), and the ghost trace of handler inputs. -/
structure LoopOut where
  status : String
  reason : String
  last : StepResult
  calls : List StepInput
  deriving DecidableEq

/-- The retry loop of `executeStep`.  `attempt` is the Go loop counter,
`remaining` the number of iterations the loop condition still allows
(`maxAttempts - attempt + 1`); `remaining = 0` with no status set mirrors
a loop body that never runs (then `stepResult` is the Go zero value). -/
def runAttempts (handler : StepHandler) (base : StepInput) :
    Nat → Nat → LoopOut
  | _, 0 => { status := "", reason := "", last := {}, calls := [] }
  | attempt, remaining + 1 =>
      let input := attemptInput base attempt
      let res := handler input
      if isSkipSet res then
        { status := "Skipped", reason := skipReasonOf res, last := res, calls := [input] }
      else if res.HasErrors = false then
        { status := "Succeeded", reason := "", last := res, calls := [input] }
      else if remaining = 0 then
        { status := "Failed", reason := "", last := res, calls := [input] }
      else
        let t := runAttempts handler base (attempt + 1) remaining
        { t with calls := input :: t.calls }

/-- The result of `executeStep`: the step execution record, the shared
context after the (single) merge, and the ghost trace of handler calls. -/
structure ExecOut where
  exec : StepExec
  vars : GoMap
  calls : List StepInput
  deriving DecidableEq

/-- runner `executeStep`: resolve the handler (a missing handler is an
immediate, non-retryable failure touching nothing), run the retry loop,
record the last outcome's messages and output, and merge its context
updates into the shared context. -/
def executeStep (registry : String → Option StepHandler) (w : WorkflowDefinition)
    (taskID : String) (runParams : GoMap) (vars : GoMap) (step : WorkflowStep) : ExecOut :=
  let handlerName := GetHandlerName w step
  match registry handlerName with
  | none =>
      { exec := { name := step.name, handler := handlerName, status := "Failed",
                  error := "handler not found: " ++ handlerName }
        vars := vars
        calls := [] }
  | some handler =>
      let base := stepBaseInput w taskID runParams vars step
      let t := runAttempts handler base 1 (GetRetries w step + 1).toNat
      { exec := { name := step.name, handler := handlerName, status := t.status,
                  error := t.reason, messages := t.last.messages, output := t.last.output }
        vars := applyUpdates vars t.last.contextUpdates
        calls := t.calls }

/-- Whether some step of the list carries the finalize template tag. -/
def hasFinalize (l : List WorkflowStep) : Bool :=
  l.any (fun s => s.template == TemplateFinalize)

/-- The step loop of `LocalRunner.Run`: execute the steps in resolved
order, latching the failure flag; on a failed non-finalize step, break
unless some step of the full resolved list is finalize-tagged.  Returns
the records in order, the final shared context, and the failure flag. -/
def runLoop (registry : String → Option StepHandler) (w : WorkflowDefinition)
    (taskID : String) (runParams : GoMap) (allSteps : List WorkflowStep) :
    List WorkflowStep → GoMap → Bool → List StepExec × GoMap × Bool
  | [], vars, failed => ([], vars, failed)
  | step :: rest, vars, failed =>
      let r := executeStep registry w taskID runParams vars step
      if r.exec.status = "Failed" then
        if step.template ≠ TemplateFinalize ∧ hasFinalize allSteps = false then
          ([r.exec], r.vars, true)
        else
          let t := runLoop registry w taskID runParams allSteps rest r.vars true
          (r.exec :: t.1, t.2)
      else
        let t := runLoop registry w taskID runParams allSteps rest r.vars failed
        (r.exec :: t.1, t.2)

/-- models.go `ExecutionResult` (timestamps and duration dropped: wall
clock). -/
structure ExecutionResult where
  result : String
  taskID : String
  workflowName : String
  steps : List StepExec
  finalVars : GoMap
  errorMessage : String
  deriving DecidableEq

/-- runner `Run`: resolve the order (a resolution failure yields overall
`Error` with no steps executed), execute the step loop, and derive the
overall result from the failure flag.  On the error path Go leaves
`FinalVars` nil, hence `[]` there. -/
def Run (registry : String → Option StepHandler) (w : WorkflowDefinition)
    (taskID : String) (runParams : GoMap) (vars : GoMap) (seedOrder : List String) :
    ExecutionResult :=
  match GetExecutionOrder w seedOrder with
  | .error e =>
      { result := "Error", taskID := taskID, workflowName := w.name, steps := [],
        finalVars := [],
        errorMessage := "Failed to determine execution order: " ++ e.message }
  | .ok steps =>
      let t := runLoop registry w taskID runParams steps steps vars false
      { result := if t.2.2 then "Failed" else "Succeeded",
        taskID := taskID, workflowName := w.name, steps := t.1,
        finalVars := t.2.1, errorMessage := "" }

/-! Concrete fixtures used to evaluate the definitions (witnesses and
counterexamples). -/

/-- A step with no dependencies. -/
def exStepA : WorkflowStep := { name := "a" }

/-- A step depending on `a`. -/
def exStepB : WorkflowStep := { name := "b", depends := ["a"] }

/-- A finalize-tagged step depending on `b`. -/
def exStepFin : WorkflowStep := { name := "fin", depends := ["b"], template := "finalize" }

/-- The same third step without the finalize tag. -/
def exStepFinPlain : WorkflowStep := { name := "fin", depends := ["b"] }

/-- An acyclic two-step workflow `a ← b`. -/
def exW : WorkflowDefinition := { name := "wf", platform := "p", steps := [exStepA, exStepB] }

/-- Two independent steps (both ready at once). -/
def exWTwo : WorkflowDefinition :=
  { name := "wf", platform := "p", steps := [{ name := "a" }, { name := "b" }] }

/-- A self-dependent step (1-cycle). -/
def exWSelf : WorkflowDefinition :=
  { name := "wf", platform := "p", steps := [{ name := "x", depends := ["x"] }] }

/-- A step depending on a name that is not a step. -/
def exWMiss : WorkflowDefinition :=
  { name := "wf", platform := "p", steps := [exStepA, { name := "b", depends := ["zzz"] }] }

/-- A step allowing two retries (budget three). -/
def exStepRetry : WorkflowStep := { name := "a", retries := 2 }

/-- A one-step workflow whose step allows two retries (budget three). -/
def exWRetry : WorkflowDefinition :=
  { name := "wf", platform := "p", steps := [exStepRetry] }

/-- The spec's worked example: `a`, failing `b`, finalize-tagged `fin`. -/
def exWFin : WorkflowDefinition :=
  { name := "wf", platform := "p", steps := [exStepA, exStepB, exStepFin] }

/-- The same workflow without the finalize tag on the third step. -/
def exWNoFin : WorkflowDefinition :=
  { name := "wf", platform := "p", steps := [exStepA, exStepB, exStepFinPlain] }

/-- A handler whose outcome has no error-severity message. -/
def exOkHandler : StepHandler :=
  fun _ => { messages := [{ severity := "INFO", text := "ok", system := "t" }] }

/-- A handler whose outcome always carries an error-severity message. -/
def exFailHandler : StepHandler :=
  fun _ => { messages := [{ severity := "ERROR", text := "boom", system := "t" }] }

/-- A handler that reports an error-severity message and also sets the skip
directive (with a reason). -/
def exSkipErrHandler : StepHandler :=
  fun _ =>
    { messages := [{ severity := "ERROR", text := "boom", system := "t" }]
      flowControl := [("skip", GoVal.vBool true), ("skip_reason", GoVal.vStr "maintenance")] }

/-- A handler that fails on attempt 1 and succeeds from attempt 2 on. -/
def exSecondTryHandler : StepHandler :=
  fun i =>
    if i.attempt ≤ 1 then { messages := [{ severity := "ERROR", text := "boom", system := "t" }] }
    else { messages := [{ severity := "INFO", text := "ok", system := "t" }] }

/-- A handler producing context updates. -/
def exVarHandler : StepHandler :=
  fun _ => { contextUpdates := [("k", GoVal.vStr "new"), ("j", GoVal.vInt 1)] }

/-- A registry binding every handler name to `exOkHandler`. -/
def exRegOk : String → Option StepHandler := fun _ => some exOkHandler

/-- A registry binding every handler name to `exFailHandler`. -/
def exRegFail : String → Option StepHandler := fun _ => some exFailHandler

/-- The empty registry. -/
def exRegNone : String → Option StepHandler := fun _ => none

/-- The registry of the spec's worked example: `a` and `fin` succeed, `b`
fails. -/
def exRegAB : String → Option StepHandler := fun n =>
  if n = "p-a" then some exOkHandler
  else if n = "p-b" then some exFailHandler
  else if n = "p-fin" then some exOkHandler
  else none

/-- The execution record produced for step `a` in the worked example. -/
def exRecA : StepExec :=
  { name := "a"
    handler := "p-a"
    status := "Succeeded"
    messages := [{ severity := "INFO", text := "ok", system := "t" }] }

/-! Map lemmas: the association-list operations implement Go map
semantics. -/

theorem getVal_eq_none_of_hasKey_false (m : GoMap) (k : String) (h : hasKey m k = false) :
    getVal m k = none := by
  induction m with
  | nil => rfl
  | cons kv m ih =>
      simp only [hasKey, List.any_cons, Bool.or_eq_false_iff] at h
      simp only [getVal, ih (by simpa [hasKey] using h.2)]
      simp only [beq_eq_false_iff_ne, ne_eq] at h
      simp [h.1]

theorem getVal_append (m n : GoMap) (k : String) :
    getVal (m ++ n) k =
      match getVal n k with
      | some v => some v
      | none => getVal m k := by
  induction m with
  | nil =>
      show getVal n k = _
      cases getVal n k <;> rfl
  | cons kv m ih =>
      show (match getVal (m ++ n) k with
            | some v => some v
            | none => if kv.1 = k then some kv.2 else none) =
        (match getVal n k with
         | some v => some v
         | none =>
             match getVal m k with
             | some v => some v
             | none => if kv.1 = k then some kv.2 else none)
      rw [ih]
      cases getVal n k <;> cases getVal m k <;> rfl

theorem map_id_of_hasKey_false (m : GoMap) (k : String) (v : GoVal)
    (h : hasKey m k = false) :
    m.map (fun kv => if kv.1 == k then (k, v) else kv) = m := by
  induction m with
  | nil => rfl
  | cons kv m ih =>
      simp only [hasKey, List.any_cons, Bool.or_eq_false_iff] at h
      simp only [List.map_cons, h.1, ih (by simpa [hasKey] using h.2)]
      simp

theorem getVal_map_self (m : GoMap) (k : String) (v : GoVal) (h : hasKey m k = true) :
    getVal (m.map (fun kv => if kv.1 == k then (k, v) else kv)) k = some v := by
  induction m with
  | nil => simp [hasKey] at h
  | cons kv m ih =>
      by_cases hk : hasKey m k = true
      · simp only [List.map_cons, getVal, ih hk]
      · simp only [Bool.not_eq_true] at hk
        simp only [hasKey, List.any_cons] at h
        rw [Bool.or_eq_true] at h
        rcases h with h | h
        · simp only [List.map_cons, getVal, map_id_of_hasKey_false m k v hk,
            getVal_eq_none_of_hasKey_false m k hk, h]
          simp
        · rw [show List.any m (fun kv => kv.1 == k) = hasKey m k from rfl] at h
          rw [h] at hk; cases hk

theorem getVal_map_other (m : GoMap) (k : String) (v : GoVal) (k' : String) (h : k' ≠ k) :
    getVal (m.map (fun kv => if kv.1 == k then (k, v) else kv)) k' = getVal m k' := by
  induction m with
  | nil => rfl
  | cons kv m ih =>
      simp only [List.map_cons, getVal, ih]
      cases getVal m k' with
      | some v' => rfl
      | none =>
          by_cases hkv : kv.1 = k
          · simp [hkv, Ne.symm h, h]
          · simp [hkv]

theorem getVal_mapSet (m : GoMap) (k : String) (v : GoVal) (k' : String) :
    getVal (mapSet m k v) k' = if k' = k then some v else getVal m k' := by
  unfold mapSet
  by_cases hm : hasKey m k = true
  · rw [if_pos hm]
    by_cases hk : k' = k
    · subst hk; rw [if_pos rfl, getVal_map_self m k' v hm]
    · rw [if_neg hk, getVal_map_other m k v k' hk]
  · simp only [Bool.not_eq_true] at hm
    rw [hm]
    simp only [Bool.false_eq_true, if_false, getVal_append]
    by_cases hk : k' = k
    · subst hk
      simp [getVal, getVal_eq_none_of_hasKey_false m k' hm]
    · simp [getVal, Ne.symm hk, hk]

theorem getVal_applyUpdates (m u : GoMap) (k : String) :
    getVal (applyUpdates m u) k =
      match getVal u k with
      | some v => some v
      | none => getVal m k := by
  induction u generalizing m with
  | nil => rfl
  | cons kv u ih =>
      show getVal (applyUpdates (mapSet m kv.1 kv.2) u) k = _
      rw [ih]
      cases hu : getVal u k with
      | some v => simp only [getVal, hu]
      | none =>
          simp only [getVal, hu, getVal_mapSet]
          by_cases hk : k = kv.1
          · subst hk; simp
          · rw [if_neg hk, if_neg (fun h => hk h.symm)]

/-! Retry-loop lemmas. -/

theorem GetRetries_nonneg (w : WorkflowDefinition) (step : WorkflowStep) :
    0 ≤ GetRetries w step := by
  unfold GetRetries
  split
  · omega
  · split <;> omega

theorem budget_pos (w : WorkflowDefinition) (step : WorkflowStep) :
    1 ≤ (GetRetries w step + 1).toNat := by
  have := GetRetries_nonneg w step
  omega

theorem runAttempts_status (h : StepHandler) (b : StepInput) :
    ∀ r a, 1 ≤ r →
      (runAttempts h b a r).status = "Skipped" ∨ (runAttempts h b a r).status = "Succeeded" ∨
        (runAttempts h b a r).status = "Failed" := by
  intro r
  induction r with
  | zero => intro a h0; omega
  | succ n ih =>
      intro a _
      simp only [runAttempts]
      split_ifs with h1 h2 h3
      · exact Or.inl rfl
      · exact Or.inr (Or.inl rfl)
      · exact Or.inr (Or.inr rfl)
      · have hn : 1 ≤ n := Nat.one_le_iff_ne_zero.mpr h3
        exact ih (a + 1) hn

theorem runAttempts_len_le (h : StepHandler) (b : StepInput) :
    ∀ r a, (runAttempts h b a r).calls.length ≤ r := by
  intro r
  induction r with
  | zero => intro a; exact Nat.le_refl 0
  | succ n ih =>
      intro a
      simp only [runAttempts]
      split_ifs
      · simp
      · simp
      · simp
      · simpa using Nat.succ_le_succ (ih (a + 1))

theorem runAttempts_len_pos (h : StepHandler) (b : StepInput) :
    ∀ r a, 1 ≤ r → 1 ≤ (runAttempts h b a r).calls.length := by
  intro r
  induction r with
  | zero => intro a h0; omega
  | succ n ih =>
      intro a _
      simp only [runAttempts]
      split_ifs <;> simp

theorem runAttempts_calls_eq (h : StepHandler) (b : StepInput) :
    ∀ r a, (runAttempts h b a r).calls =
      (List.range (runAttempts h b a r).calls.length).map (fun j => attemptInput b (a + j)) := by
  intro r
  induction r with
  | zero => intro a; rfl
  | succ n ih =>
      intro a
      by_cases h1 : isSkipSet (h (attemptInput b a)) = true
      · simp only [runAttempts]; rw [if_pos h1]; simp [List.range_succ]
      · by_cases h2 : (h (attemptInput b a)).HasErrors = false
        · simp only [runAttempts]; rw [if_neg h1, if_pos h2]; simp [List.range_succ]
        · by_cases h3 : n = 0
          · simp only [runAttempts]; rw [if_neg h1, if_neg h2, if_pos h3]
            simp [List.range_succ]
          · simp only [runAttempts]; rw [if_neg h1, if_neg h2, if_neg h3]
            show attemptInput b a :: (runAttempts h b (a + 1) n).calls =
              (List.range ((attemptInput b a :: (runAttempts h b (a + 1) n).calls).length)).map
                (fun j => attemptInput b (a + j))
            rw [List.length_cons, List.range_succ_eq_map, List.map_cons, List.map_map]
            congr 1
            conv_lhs => rw [ih (a + 1)]
            have hfun : ((fun j => attemptInput b (a + j)) ∘ Nat.succ) =
                (fun j => attemptInput b (a + 1 + j)) := by
              funext j
              simp only [Function.comp_apply]
              congr 1
              omega
            rw [hfun]

theorem runAttempts_get (h : StepHandler) (b : StepInput) (r a i : Nat)
    (hi : i < (runAttempts h b a r).calls.length) :
    (runAttempts h b a r).calls.get ⟨i, hi⟩ = attemptInput b (a + i) := by
  rw [List.get_of_eq (runAttempts_calls_eq h b r a)]
  simp

theorem runAttempts_get_fin (h : StepHandler) (b : StepInput) (r a : Nat)
    (idx : Fin (runAttempts h b a r).calls.length) :
    (runAttempts h b a r).calls.get idx = attemptInput b (a + idx.val) :=
  runAttempts_get h b r a idx.val idx.isLt

theorem runAttempts_skip (h : StepHandler) (b : StepInput) (r a : Nat) (hr : 1 ≤ r)
    (hs : isSkipSet (h (attemptInput b a)) = true) :
    runAttempts h b a r =
      { status := "Skipped", reason := skipReasonOf (h (attemptInput b a)),
        last := h (attemptInput b a), calls := [attemptInput b a] } := by
  match r, hr with
  | n + 1, _ =>
      simp only [runAttempts]
      rw [if_pos hs]

theorem runAttempts_allfail (h : StepHandler) (b : StepInput) :
    ∀ r a, 1 ≤ r →
      (∀ i : Nat, a ≤ i → i < a + r →
        (h (attemptInput b i)).HasErrors = true ∧ isSkipSet (h (attemptInput b i)) = false) →
      (runAttempts h b a r).status = "Failed" ∧ (runAttempts h b a r).calls.length = r := by
  intro r
  induction r with
  | zero => intro a h0; omega
  | succ n ih =>
      intro a _ hall
      have hcur := hall a (Nat.le_refl a) (by omega)
      simp only [runAttempts]
      rw [if_neg (by simp [hcur.2]), if_neg (by simp [hcur.1])]
      by_cases hn : n = 0
      · subst hn; simp
      · rw [if_neg hn]
        have := ih (a + 1) (Nat.one_le_iff_ne_zero.mpr hn)
          (fun i hi1 hi2 => hall i (by omega) (by omega))
        simp [this.1, this.2]

theorem runAttempts_firstok (h : StepHandler) (b : StepInput) :
    ∀ r a K, a ≤ K → K < a + r →
      (∀ i : Nat, a ≤ i → i < K →
        (h (attemptInput b i)).HasErrors = true ∧ isSkipSet (h (attemptInput b i)) = false) →
      isSkipSet (h (attemptInput b K)) = false →
      (h (attemptInput b K)).HasErrors = false →
      (runAttempts h b a r).status = "Succeeded" ∧
        (runAttempts h b a r).calls.length = K - a + 1 := by
  intro r
  induction r with
  | zero => intro a K h1 h2; omega
  | succ n ih =>
      intro a K haK hKr hbefore hKskip hKerr
      by_cases haeq : a = K
      · subst haeq
        simp only [runAttempts]
        rw [if_neg (by simp [hKskip]), if_pos hKerr]
        simp
      · have haK' : a < K := Nat.lt_of_le_of_ne haK haeq
        have hcur := hbefore a (Nat.le_refl a) haK'
        simp only [runAttempts]
        rw [if_neg (by simp [hcur.2]), if_neg (by simp [hcur.1])]
        have hn : n ≠ 0 := by omega
        rw [if_neg hn]
        have := ih (a + 1) K (by omega) (by omega)
          (fun i hi1 hi2 => hbefore i (by omega) hi2) hKskip hKerr
        constructor
        · simpa using this.1
        · show (attemptInput b a :: (runAttempts h b (a + 1) n).calls).length = K - a + 1
          rw [List.length_cons]
          have h2 := this.2
          omega

theorem runAttempts_last (h : StepHandler) (b : StepInput) :
    ∀ r a, 1 ≤ r →
      ∃ lastIn, (runAttempts h b a r).calls.getLast? = some lastIn ∧
        (runAttempts h b a r).last = h lastIn := by
  intro r
  induction r with
  | zero => intro a h0; omega
  | succ n ih =>
      intro a _
      simp only [runAttempts]
      split_ifs with h1 h2 h3
      · exact ⟨attemptInput b a, rfl, rfl⟩
      · exact ⟨attemptInput b a, rfl, rfl⟩
      · exact ⟨attemptInput b a, rfl, rfl⟩
      · obtain ⟨lastIn, hL, hE⟩ := ih (a + 1) (Nat.one_le_iff_ne_zero.mpr h3)
        refine ⟨lastIn, ?_, hE⟩
        cases hc : (runAttempts h b (a + 1) n).calls with
        | nil => rw [hc] at hL; simp at hL
        | cons c cs =>
            rw [hc] at hL
            simpa [List.getLast?_cons_cons] using hL

/-! `executeStep`-level lemmas and the step/run status claims. -/

theorem executeStep_status (registry : String → Option StepHandler) (w : WorkflowDefinition)
    (taskID : String) (runParams vars : GoMap) (step : WorkflowStep) :
    (executeStep registry w taskID runParams vars step).exec.status = "Succeeded" ∨
      (executeStep registry w taskID runParams vars step).exec.status = "Failed" ∨
      (executeStep registry w taskID runParams vars step).exec.status = "Skipped" := by
  cases hreg : registry (GetHandlerName w step) with
  | none => simp [executeStep, hreg]
  | some handler =>
      simp only [executeStep, hreg]
      have := runAttempts_status handler (stepBaseInput w taskID runParams vars step)
        (GetRetries w step + 1).toNat 1 (budget_pos w step)
      tauto

theorem runLoop_status (registry : String → Option StepHandler) (w : WorkflowDefinition)
    (taskID : String) (runParams : GoMap) (allSteps : List WorkflowStep) :
    ∀ l : List WorkflowStep, ∀ vars failed,
      ∀ e ∈ (runLoop registry w taskID runParams allSteps l vars failed).1,
        e.status = "Succeeded" ∨ e.status = "Failed" ∨ e.status = "Skipped" := by
  intro l
  induction l with
  | nil => intro vars failed e he; simp [runLoop] at he
  | cons step rest ih =>
      intro vars failed e he
      simp only [runLoop] at he
      split_ifs at he with h1 h2
      · simp only [List.mem_singleton] at he
        subst he
        exact executeStep_status registry w taskID runParams vars step
      · simp only [List.mem_cons] at he
        rcases he with rfl | he
        · exact executeStep_status registry w taskID runParams vars step
        · exact ih _ _ e he
      · simp only [List.mem_cons] at he
        rcases he with rfl | he
        · exact executeStep_status registry w taskID runParams vars step
        · exact ih _ _ e he

/-- C10: every step execution record appended to the run result carries one
of the three final statuses `Succeeded`, `Failed`, `Skipped`; the status
field (whose Go zero value is the empty string) is never left unset, since
the attempt budget is at least one and every loop exit writes a status. -/
theorem c10_record_status_always_set (registry : String → Option StepHandler)
    (w : WorkflowDefinition) (taskID : String) (runParams vars : GoMap)
    (seedOrder : List String) :
    ∀ e ∈ (Run registry w taskID runParams vars seedOrder).steps,
      e.status = "Succeeded" ∨ e.status = "Failed" ∨ e.status = "Skipped" := by
  intro e he
  unfold Run at he
  cases hord : GetExecutionOrder w seedOrder with
  | error err => rw [hord] at he; simp at he
  | ok steps =>
      rw [hord] at he
      simp only at he
      exact runLoop_status registry w taskID runParams steps steps vars false e he

/-- Witness for C10 at the spec's worked example. -/
theorem c10_record_status_always_set_witness :
    (exRecA ∈ (Run exRegAB exWFin "t" [] [] ["a", "b", "fin"]).steps) ∧
    (exRecA.status = "Succeeded" ∨ exRecA.status = "Failed" ∨ exRecA.status = "Skipped") :=
  ⟨by decide,
   c10_record_status_always_set exRegAB exWFin "t" [] [] ["a", "b", "fin"] _ (by decide)⟩

/-- C9: a failed handler lookup yields a `Failed` record without invoking
any handler; the shared context is returned unchanged and no messages or
output are recorded. -/
theorem c9_missing_handler_frame (registry : String → Option StepHandler)
    (w : WorkflowDefinition) (taskID : String) (runParams vars : GoMap) (step : WorkflowStep)
    (h : registry (GetHandlerName w step) = none) :
    (executeStep registry w taskID runParams vars step).vars = vars ∧
    (executeStep registry w taskID runParams vars step).calls = [] ∧
    (executeStep registry w taskID runParams vars step).exec.status = "Failed" ∧
    (executeStep registry w taskID runParams vars step).exec.messages = [] ∧
    (executeStep registry w taskID runParams vars step).exec.output = [] ∧
    (executeStep registry w taskID runParams vars step).exec.error =
      "handler not found: " ++ GetHandlerName w step := by
  simp [executeStep, h]

/-- Witness for C9: an empty registry leaves a nonempty context untouched. -/
theorem c9_missing_handler_frame_witness :
    (exRegNone (GetHandlerName exW exStepA) = none) ∧
    ((executeStep exRegNone exW "t" [] [("k", GoVal.vStr "v")] exStepA).vars
        = [("k", GoVal.vStr "v")] ∧
      (executeStep exRegNone exW "t" [] [("k", GoVal.vStr "v")] exStepA).calls = [] ∧
      (executeStep exRegNone exW "t" [] [("k", GoVal.vStr "v")] exStepA).exec.status = "Failed" ∧
      (executeStep exRegNone exW "t" [] [("k", GoVal.vStr "v")] exStepA).exec.messages = [] ∧
      (executeStep exRegNone exW "t" [] [("k", GoVal.vStr "v")] exStepA).exec.output = [] ∧
      (executeStep exRegNone exW "t" [] [("k", GoVal.vStr "v")] exStepA).exec.error =
        "handler not found: " ++ GetHandlerName exW exStepA) :=
  ⟨rfl, c9_missing_handler_frame exRegNone exW "t" [] [("k", GoVal.vStr "v")] exStepA rfl⟩

/-- C5: a handler that sets the skip directive on its first attempt is
invoked exactly once regardless of the retry budget; the final status is
`Skipped` (distinct from `Succeeded` and `Failed`) and the skip reason is
stored in the record's error field. -/
theorem c5_skip_first_attempt (registry : String → Option StepHandler)
    (w : WorkflowDefinition) (taskID : String) (runParams vars : GoMap) (step : WorkflowStep)
    (handler : StepHandler)
    (hreg : registry (GetHandlerName w step) = some handler)
    (hskip : isSkipSet
      (handler (attemptInput (stepBaseInput w taskID runParams vars step) 1)) = true) :
    (executeStep registry w taskID runParams vars step).calls =
      [attemptInput (stepBaseInput w taskID runParams vars step) 1] ∧
    (executeStep registry w taskID runParams vars step).exec.status = "Skipped" ∧
    ("Skipped" : String) ≠ "Succeeded" ∧ ("Skipped" : String) ≠ "Failed" ∧
    (executeStep registry w taskID runParams vars step).exec.error =
      skipReasonOf (handler (attemptInput (stepBaseInput w taskID runParams vars step) 1)) := by
  simp only [executeStep, hreg]
  rw [runAttempts_skip handler (stepBaseInput w taskID runParams vars step)
    (GetRetries w step + 1).toNat 1 (budget_pos w step) hskip]
  refine ⟨rfl, rfl, by decide, by decide, rfl⟩

/-- Witness for C5: the skip-and-error handler on a step with budget 3. -/
theorem c5_skip_first_attempt_witness :
    ((fun _ => some exSkipErrHandler : String → Option StepHandler)
        (GetHandlerName exWRetry exStepRetry) = some exSkipErrHandler) ∧
    (isSkipSet (exSkipErrHandler
        (attemptInput (stepBaseInput exWRetry "t" [] [] exStepRetry) 1)) = true) ∧
    ((executeStep (fun _ => some exSkipErrHandler) exWRetry "t" [] [] exStepRetry).calls =
        [attemptInput (stepBaseInput exWRetry "t" [] [] exStepRetry) 1] ∧
      (executeStep (fun _ => some exSkipErrHandler) exWRetry "t" [] [] exStepRetry).exec.status
        = "Skipped" ∧
      ("Skipped" : String) ≠ "Succeeded" ∧ ("Skipped" : String) ≠ "Failed" ∧
      (executeStep (fun _ => some exSkipErrHandler) exWRetry "t" [] [] exStepRetry).exec.error =
        skipReasonOf (exSkipErrHandler
          (attemptInput (stepBaseInput exWRetry "t" [] [] exStepRetry) 1))) :=
  ⟨rfl, by decide,
   c5_skip_first_attempt (fun _ => some exSkipErrHandler) exWRetry "t" [] [] exStepRetry
     exSkipErrHandler rfl (by decide)⟩

/-- C4: once the retry loop exits, exactly the last attempt's outcome is
recorded (messages and output), and its context updates are merged into
the shared context in a single pass, each key overwriting any previous
binding; earlier attempts' updates are never applied. -/
theorem c4_last_outcome_merged_once (registry : String → Option StepHandler)
    (w : WorkflowDefinition) (taskID : String) (runParams vars : GoMap) (step : WorkflowStep)
    (handler : StepHandler)
    (hreg : registry (GetHandlerName w step) = some handler) :
    ∃ lastIn,
      (executeStep registry w taskID runParams vars step).calls.getLast? = some lastIn ∧
      (executeStep registry w taskID runParams vars step).vars =
        applyUpdates vars (handler lastIn).contextUpdates ∧
      (executeStep registry w taskID runParams vars step).exec.messages =
        (handler lastIn).messages ∧
      (executeStep registry w taskID runParams vars step).exec.output =
        (handler lastIn).output ∧
      (∀ k, getVal (executeStep registry w taskID runParams vars step).vars k =
        match getVal (handler lastIn).contextUpdates k with
        | some v => some v
        | none => getVal vars k) := by
  obtain ⟨lastIn, hL, hE⟩ := runAttempts_last handler
    (stepBaseInput w taskID runParams vars step) (GetRetries w step + 1).toNat 1
    (budget_pos w step)
  refine ⟨lastIn, ?_, ?_, ?_, ?_, ?_⟩
  · simp only [executeStep, hreg]; exact hL
  · simp only [executeStep, hreg]; rw [hE]
  · simp only [executeStep, hreg]; rw [hE]
  · simp only [executeStep, hreg]; rw [hE]
  · intro k
    simp only [executeStep, hreg]
    rw [hE]
    exact getVal_applyUpdates vars (handler lastIn).contextUpdates k

/-- Witness for C4 with a context-writing handler over a nonempty context. -/
theorem c4_last_outcome_merged_once_witness :
    ((fun _ => some exVarHandler : String → Option StepHandler)
        (GetHandlerName exW exStepA) = some exVarHandler) ∧
    (∃ lastIn,
      (executeStep (fun _ => some exVarHandler) exW "t" [] [("k", GoVal.vStr "old")]
          exStepA).calls.getLast? = some lastIn ∧
      (executeStep (fun _ => some exVarHandler) exW "t" [] [("k", GoVal.vStr "old")]
          exStepA).vars = applyUpdates [("k", GoVal.vStr "old")]
            (exVarHandler lastIn).contextUpdates ∧
      (executeStep (fun _ => some exVarHandler) exW "t" [] [("k", GoVal.vStr "old")]
          exStepA).exec.messages = (exVarHandler lastIn).messages ∧
      (executeStep (fun _ => some exVarHandler) exW "t" [] [("k", GoVal.vStr "old")]
          exStepA).exec.output = (exVarHandler lastIn).output ∧
      (∀ k, getVal (executeStep (fun _ => some exVarHandler) exW "t" []
          [("k", GoVal.vStr "old")] exStepA).vars k =
        match getVal (exVarHandler lastIn).contextUpdates k with
        | some v => some v
        | none => getVal [("k", GoVal.vStr "old")] k)) :=
  ⟨rfl, c4_last_outcome_merged_once (fun _ => some exVarHandler) exW "t" []
    [("k", GoVal.vStr "old")] exStepA exVarHandler rfl⟩

/-- C2 counterexample: a handler whose outcome carries an error-severity
message on its (only) attempt but also sets the skip directive.  The step
has retries = 2 (budget 3); the claim predicts 3 invocations and `Failed`,
the code makes exactly 1 invocation and records `Skipped`. -/
theorem c2_retry_counts_cex :
    GetRetries exWRetry exStepRetry = 2 ∧
    (∀ c ∈ (executeStep (fun _ => some exSkipErrHandler) exWRetry "t" [] [] exStepRetry).calls,
      (exSkipErrHandler c).HasErrors = true) ∧
    (executeStep (fun _ => some exSkipErrHandler) exWRetry "t" [] [] exStepRetry).calls.length
      = 1 ∧
    (executeStep (fun _ => some exSkipErrHandler) exWRetry "t" [] [] exStepRetry).exec.status
      = "Skipped" ∧
    ¬((executeStep (fun _ => some exSkipErrHandler) exWRetry "t" [] [] exStepRetry).calls.length
        = 3 ∧
      (executeStep (fun _ => some exSkipErrHandler) exWRetry "t" [] [] exStepRetry).exec.status
        = "Failed") := by
  decide

/-- C2 (amended): for a step with attempt budget N+1, a handler whose
outcome has an error-severity message and does not set the skip directive
on every attempt is invoked exactly N+1 times with final status `Failed`;
if attempts before K error without skipping and attempt K (K ≤ N+1) has no
error message and no skip directive, the handler is invoked exactly K
times with final status `Succeeded`. -/
theorem c2_retry_counts_amended (registry : String → Option StepHandler)
    (w : WorkflowDefinition) (taskID : String) (runParams vars : GoMap) (step : WorkflowStep)
    (handler : StepHandler)
    (hreg : registry (GetHandlerName w step) = some handler) :
    ((∀ a : Nat, 1 ≤ a → a ≤ (GetRetries w step + 1).toNat →
        (handler (attemptInput (stepBaseInput w taskID runParams vars step) a)).HasErrors
          = true ∧
        isSkipSet (handler (attemptInput (stepBaseInput w taskID runParams vars step) a))
          = false) →
      (executeStep registry w taskID runParams vars step).calls.length
          = (GetRetries w step + 1).toNat ∧
        (executeStep registry w taskID runParams vars step).exec.status = "Failed") ∧
    (∀ K : Nat, 1 ≤ K → K ≤ (GetRetries w step + 1).toNat →
      (∀ a : Nat, 1 ≤ a → a < K →
        (handler (attemptInput (stepBaseInput w taskID runParams vars step) a)).HasErrors
          = true ∧
        isSkipSet (handler (attemptInput (stepBaseInput w taskID runParams vars step) a))
          = false) →
      isSkipSet (handler (attemptInput (stepBaseInput w taskID runParams vars step) K))
        = false →
      (handler (attemptInput (stepBaseInput w taskID runParams vars step) K)).HasErrors
        = false →
      (executeStep registry w taskID runParams vars step).calls.length = K ∧
        (executeStep registry w taskID runParams vars step).exec.status = "Succeeded") := by
  constructor
  · intro hall
    simp only [executeStep, hreg]
    have := runAttempts_allfail handler (stepBaseInput w taskID runParams vars step)
      (GetRetries w step + 1).toNat 1 (budget_pos w step)
      (fun i hi1 hi2 => hall i hi1 (by omega))
    exact ⟨this.2, this.1⟩
  · intro K hK1 hK2 hbefore hKskip hKerr
    simp only [executeStep, hreg]
    have := runAttempts_firstok handler (stepBaseInput w taskID runParams vars step)
      (GetRetries w step + 1).toNat 1 K hK1 (by omega)
      (fun i hi1 hi2 => hbefore i hi1 hi2) hKskip hKerr
    refine ⟨?_, this.1⟩
    rw [this.2]
    omega

/-- Witness for the amended C2: an always-failing handler exhausts the
budget of 3; a handler failing only on attempt 1 succeeds with 2 calls. -/
theorem c2_retry_counts_amended_witness :
    ((fun _ => some exFailHandler : String → Option StepHandler)
        (GetHandlerName exWRetry exStepRetry) = some exFailHandler) ∧
    ((executeStep (fun _ => some exFailHandler) exWRetry "t" [] [] exStepRetry).calls.length
        = (GetRetries exWRetry exStepRetry + 1).toNat ∧
      (executeStep (fun _ => some exFailHandler) exWRetry "t" [] [] exStepRetry).exec.status
        = "Failed") ∧
    ((executeStep (fun _ => some exSecondTryHandler) exWRetry "t" [] [] exStepRetry).calls.length
        = 2 ∧
      (executeStep (fun _ => some exSecondTryHandler) exWRetry "t" [] [] exStepRetry).exec.status
        = "Succeeded") := by
  refine ⟨rfl, ?_, ?_⟩
  · exact (c2_retry_counts_amended (fun _ => some exFailHandler) exWRetry "t" [] []
      exStepRetry exFailHandler rfl).1 (fun a h1 h2 => ⟨rfl, rfl⟩)
  · refine (c2_retry_counts_amended (fun _ => some exSecondTryHandler) exWRetry "t" [] []
      exStepRetry exSecondTryHandler rfl).2 2 (by omega) (by decide) ?_ (by decide) (by decide)
    intro a h1 h2
    have ha : a = 1 := by omega
    subst ha
    exact ⟨by decide, by decide⟩

/-- C8 counterexample: with a step retry override of 2 the attempt budget
is 3, yet every Step Input passed to the handler carries the value 2 in
its total field — the configured retry count, not the total allowed
attempts required by the claim. -/
theorem c8_total_attempts_cex :
    (GetRetries exWRetry exStepRetry + 1).toNat = 3 ∧
    (executeStep (fun _ => some exFailHandler) exWRetry "t" [] [] exStepRetry).calls.length
      = 3 ∧
    (∀ c ∈ (executeStep (fun _ => some exFailHandler) exWRetry "t" [] [] exStepRetry).calls,
      c.totalRetries = 2) ∧
    (2 : Int) ≠ 3 := by
  decide

/-- C8 (amended): the attempt budget is retries+1, where retries is the
step's positive override, else the workflow's positive default, else zero;
each Step Input carries the 1-based attempt number and the configured
retry count (one less than the total allowed attempts). -/
theorem c8_budget_and_input_metadata (registry : String → Option StepHandler)
    (w : WorkflowDefinition) (taskID : String) (runParams vars : GoMap) (step : WorkflowStep)
    (handler : StepHandler)
    (hreg : registry (GetHandlerName w step) = some handler) :
    GetRetries w step = (if step.retries > 0 then step.retries
      else if w.defaultRetries > 0 then w.defaultRetries else 0) ∧
    1 ≤ (executeStep registry w taskID runParams vars step).calls.length ∧
    (executeStep registry w taskID runParams vars step).calls.length
      ≤ (GetRetries w step + 1).toNat ∧
    (∀ i : Nat, ∀ hi : i < (executeStep registry w taskID runParams vars step).calls.length,
      ((executeStep registry w taskID runParams vars step).calls.get ⟨i, hi⟩).attempt
          = (i : Int) + 1 ∧
        ((executeStep registry w taskID runParams vars step).calls.get ⟨i, hi⟩).totalRetries
          = GetRetries w step) := by
  refine ⟨rfl, ?_, ?_, ?_⟩
  · simp only [executeStep, hreg]
    exact runAttempts_len_pos handler (stepBaseInput w taskID runParams vars step)
      (GetRetries w step + 1).toNat 1 (budget_pos w step)
  · simp only [executeStep, hreg]
    exact runAttempts_len_le handler (stepBaseInput w taskID runParams vars step)
      (GetRetries w step + 1).toNat 1
  · intro i hi
    have hcalls : (executeStep registry w taskID runParams vars step).calls =
        (runAttempts handler (stepBaseInput w taskID runParams vars step) 1
          (GetRetries w step + 1).toNat).calls := by
      simp only [executeStep, hreg]
    rw [List.get_of_eq hcalls]
    simp only [runAttempts_get_fin, Fin.coe_cast]
    constructor
    · simp only [attemptInput]
      push_cast
      ring
    · rfl

/-- Witness for the amended C8 at the retries = 2 step. -/
theorem c8_budget_and_input_metadata_witness :
    ((fun _ => some exFailHandler : String → Option StepHandler)
        (GetHandlerName exWRetry exStepRetry) = some exFailHandler) ∧
    GetRetries exWRetry exStepRetry = (if exStepRetry.retries > 0 then exStepRetry.retries
      else if exWRetry.defaultRetries > 0 then exWRetry.defaultRetries else 0) ∧
    1 ≤ (executeStep (fun _ => some exFailHandler) exWRetry "t" [] [] exStepRetry).calls.length ∧
    (executeStep (fun _ => some exFailHandler) exWRetry "t" [] [] exStepRetry).calls.length
      ≤ (GetRetries exWRetry exStepRetry + 1).toNat ∧
    (((executeStep (fun _ => some exFailHandler) exWRetry "t" [] [] exStepRetry).calls.get
          ⟨0, by decide⟩).attempt = (0 : Int) + 1 ∧
      ((executeStep (fun _ => some exFailHandler) exWRetry "t" [] [] exStepRetry).calls.get
          ⟨0, by decide⟩).totalRetries = GetRetries exWRetry exStepRetry) := by
  have h := c8_budget_and_input_metadata (fun _ => some exFailHandler) exWRetry "t" [] []
    exStepRetry exFailHandler rfl
  exact ⟨rfl, h.1, h.2.1, h.2.2.1, h.2.2.2 0 (by decide)⟩

/-! Run-loop lemmas for the halt/finalize/overall-result behavior. -/

theorem hasFinalize_false_iff (l : List WorkflowStep) :
    hasFinalize l = false ↔ ∀ s ∈ l, s.template ≠ TemplateFinalize := by
  simp [hasFinalize]

theorem runLoop_flag (registry : String → Option StepHandler) (w : WorkflowDefinition)
    (taskID : String) (runParams : GoMap) (allSteps : List WorkflowStep) :
    ∀ l : List WorkflowStep, ∀ vars failed,
      (runLoop registry w taskID runParams allSteps l vars failed).2.2 =
        (failed ||
          (runLoop registry w taskID runParams allSteps l vars failed).1.any
            (fun e => e.status == "Failed")) := by
  intro l
  induction l with
  | nil => intro vars failed; simp [runLoop]
  | cons step rest ih =>
      intro vars failed
      simp only [runLoop]
      split_ifs with h1 h2
      · simp [h1]
      · simp only [List.any_cons, ih _ true, h1]
        simp
      · simp only [List.any_cons, ih _ failed]
        have : ((executeStep registry w taskID runParams vars step).exec.status == "Failed")
            = false := by
          simpa using h1
        rw [this]
        simp

theorem runLoop_halt (registry : String → Option StepHandler) (w : WorkflowDefinition)
    (taskID : String) (runParams : GoMap) (allSteps : List WorkflowStep)
    (hAll : hasFinalize allSteps = false) :
    ∀ l : List WorkflowStep, (∀ s ∈ l, s.template ≠ TemplateFinalize) →
      ∀ vars failed, ∀ i : Nat, ∀ e : StepExec,
      (runLoop registry w taskID runParams allSteps l vars failed).1.get? i = some e →
      e.status = "Failed" →
      (runLoop registry w taskID runParams allSteps l vars failed).1.length = i + 1 := by
  intro l
  induction l with
  | nil => intro _ vars failed i e he; simp [runLoop] at he
  | cons step rest ih =>
      intro hl vars failed i e he hfail
      by_cases h1 : (executeStep registry w taskID runParams vars step).exec.status = "Failed"
      · have hr : runLoop registry w taskID runParams allSteps (step :: rest) vars failed =
            ([(executeStep registry w taskID runParams vars step).exec],
              (executeStep registry w taskID runParams vars step).vars, true) := by
          simp only [runLoop]
          rw [if_pos h1, if_pos ⟨hl step (List.mem_cons_self step rest), hAll⟩]
        rw [hr] at he ⊢
        match i with
        | 0 => rfl
        | i + 1 => simp at he
      · have hr : runLoop registry w taskID runParams allSteps (step :: rest) vars failed =
            ((executeStep registry w taskID runParams vars step).exec ::
              (runLoop registry w taskID runParams allSteps rest
                (executeStep registry w taskID runParams vars step).vars failed).1,
              (runLoop registry w taskID runParams allSteps rest
                (executeStep registry w taskID runParams vars step).vars failed).2) := by
          simp only [runLoop]
          rw [if_neg h1]
        rw [hr] at he ⊢
        match i with
        | 0 =>
            simp only [List.get?_cons_zero, Option.some_inj] at he
            rw [← he] at hfail
            exact absurd hfail h1
        | i + 1 =>
            simp only [List.get?_cons_succ] at he
            simp only [List.length_cons]
            have := ih (fun s hs => hl s (List.mem_cons_of_mem step hs)) _ failed i e he hfail
            omega

theorem runLoop_full (registry : String → Option StepHandler) (w : WorkflowDefinition)
    (taskID : String) (runParams : GoMap) (allSteps : List WorkflowStep)
    (hAll : hasFinalize allSteps = true) :
    ∀ l : List WorkflowStep, ∀ vars failed,
      (runLoop registry w taskID runParams allSteps l vars failed).1.length = l.length := by
  intro l
  induction l with
  | nil => intro vars failed; rfl
  | cons step rest ih =>
      intro vars failed
      simp only [runLoop]
      split_ifs with h1 h2
      · exact absurd hAll (by simpa using h2.2)
      · simp only [List.length_cons, ih]
      · simp only [List.length_cons, ih]

/-- C3: with a resolved order in hand, (a) if the workflow has no
finalize-tagged step, a `Failed` record is always the last one appended —
no later step runs; (b) if some step is finalize-tagged, every step of the
resolved order is executed even past failures; (c) the overall result is
`Failed` exactly when some executed step ended `Failed`, else
`Succeeded`. -/
theorem c3_halt_finalize_overall (registry : String → Option StepHandler)
    (w : WorkflowDefinition) (taskID : String) (runParams vars : GoMap)
    (seedOrder : List String) (order : List WorkflowStep)
    (horder : GetExecutionOrder w seedOrder = Except.ok order) :
    (hasFinalize order = false →
      ∀ i : Nat,
        ∀ hi : i < (Run registry w taskID runParams vars seedOrder).steps.length,
        ((Run registry w taskID runParams vars seedOrder).steps.get ⟨i, hi⟩).status = "Failed" →
        (Run registry w taskID runParams vars seedOrder).steps.length = i + 1) ∧
    (hasFinalize order = true →
      (Run registry w taskID runParams vars seedOrder).steps.length = order.length) ∧
    ((Run registry w taskID runParams vars seedOrder).result =
      if (Run registry w taskID runParams vars seedOrder).steps.any
          (fun e => e.status == "Failed")
        then "Failed" else "Succeeded") := by
  have hsteps : (Run registry w taskID runParams vars seedOrder).steps =
      (runLoop registry w taskID runParams order order vars false).1 := by
    simp [Run, horder]
  have hres : (Run registry w taskID runParams vars seedOrder).result =
      (if (runLoop registry w taskID runParams order order vars false).2.2
        then "Failed" else "Succeeded") := by
    simp [Run, horder]
  refine ⟨?_, ?_, ?_⟩
  · intro hfin i hi hfail
    obtain ⟨e, he, hfe⟩ : ∃ e, (Run registry w taskID runParams vars seedOrder).steps.get? i
        = some e ∧ e.status = "Failed" :=
      ⟨_, List.get?_eq_get hi, hfail⟩
    rw [hsteps] at he ⊢
    exact runLoop_halt registry w taskID runParams order hfin order
      ((hasFinalize_false_iff order).mp hfin) vars false i e he hfe
  · intro hfin
    rw [hsteps]
    exact runLoop_full registry w taskID runParams order hfin order vars false
  · rw [hres, hsteps, runLoop_flag]
    simp

/-- Witness for C3 at the spec's worked example, with and without the
finalize tag on the third step. -/
theorem c3_halt_finalize_overall_witness :
    (GetExecutionOrder exWNoFin ["a", "b", "fin"]
      = Except.ok [exStepA, exStepB, exStepFinPlain]) ∧
    (GetExecutionOrder exWFin ["a", "b", "fin"] = Except.ok [exStepA, exStepB, exStepFin]) ∧
    (Run exRegAB exWNoFin "t" [] [] ["a", "b", "fin"]).steps.length = 2 ∧
    (Run exRegAB exWFin "t" [] [] ["a", "b", "fin"]).steps.length = 3 ∧
    (Run exRegAB exWFin "t" [] [] ["a", "b", "fin"]).result = "Failed" := by
  refine ⟨rfl, rfl, ?_, ?_, ?_⟩
  · exact (c3_halt_finalize_overall exRegAB exWNoFin "t" [] [] ["a", "b", "fin"]
      [exStepA, exStepB, exStepFinPlain] rfl).1 (by decide) 1 (by decide) (by decide)
  · exact (c3_halt_finalize_overall exRegAB exWFin "t" [] [] ["a", "b", "fin"]
      [exStepA, exStepB, exStepFin] rfl).2.1 (by decide)
  · have := (c3_halt_finalize_overall exRegAB exWFin "t" [] [] ["a", "b", "fin"]
      [exStepA, exStepB, exStepFin] rfl).2.2
    rw [this]
    decide

/-- C7 is contradicted by the code: the ready queue of `GetExecutionOrder`
is seeded by ranging over the Go `inDegree` map, whose iteration order is
randomized, and for a fixed workflow with two independent steps the two
possible enumerations of the key set yield different step orders. -/
theorem c7_seed_order_changes_output :
    SeedOk exWTwo ["a", "b"] ∧ SeedOk exWTwo ["b", "a"] ∧
    GetExecutionOrder exWTwo ["a", "b"]
      = Except.ok [{ name := "a" }, { name := "b" }] ∧
    GetExecutionOrder exWTwo ["b", "a"]
      = Except.ok [{ name := "b" }, { name := "a" }] ∧
    ([{ name := "a" }, { name := "b" }] : List WorkflowStep)
      ≠ [{ name := "b" }, { name := "a" }] := by
  refine ⟨by decide, by decide, rfl, rfl, by decide⟩

/-! Resolver lemmas: step lookup, validation scan, dependents counting. -/

theorem lookupLast_mem {l : List WorkflowStep} {x : String} {s : WorkflowStep}
    (h : lookupLast l x = some s) : s ∈ l ∧ s.name = x := by
  induction l with
  | nil => simp [lookupLast] at h
  | cons t rest ih =>
      simp only [lookupLast] at h
      cases hr : lookupLast rest x with
      | some u =>
          rw [hr] at h
          obtain ⟨hm, hn⟩ := ih (hr.trans (by injection h with h; rw [h]))
          exact ⟨List.mem_cons_of_mem t hm, hn⟩
      | none =>
          rw [hr] at h
          by_cases ht : t.name = x
          · rw [if_pos ht] at h
            injection h with h
            exact ⟨h ▸ List.mem_cons_self t rest, h ▸ ht⟩
          · rw [if_neg ht] at h
            cases h

theorem lookupLast_eq_none {l : List WorkflowStep} {x : String}
    (h : x ∉ l.map WorkflowStep.name) : lookupLast l x = none := by
  induction l with
  | nil => rfl
  | cons t rest ih =>
      simp only [List.map_cons, List.mem_cons, not_or] at h
      simp only [lookupLast, ih h.2]
      rw [if_neg (fun he => h.1 he.symm)]

theorem lookupLast_isSome {l : List WorkflowStep} {x : String}
    (h : x ∈ l.map WorkflowStep.name) : ∃ s, lookupLast l x = some s := by
  induction l with
  | nil => simp at h
  | cons t rest ih =>
      simp only [lookupLast]
      cases hr : lookupLast rest x with
      | some u => exact ⟨u, rfl⟩
      | none =>
          simp only [List.map_cons, List.mem_cons] at h
          rcases h with h | h
          · exact ⟨t, by rw [if_pos h.symm]⟩
          · obtain ⟨s, hs⟩ := ih h
            rw [hs] at hr
            cases hr

theorem lookupLast_of_mem {l : List WorkflowStep} (hnd : (l.map WorkflowStep.name).Nodup)
    {s : WorkflowStep} (hs : s ∈ l) : lookupLast l s.name = some s := by
  induction l with
  | nil => simp at hs
  | cons t rest ih =>
      simp only [List.map_cons, List.nodup_cons] at hnd
      rcases List.mem_cons.mp hs with rfl | hs
      · have : lookupLast rest s.name = none :=
          lookupLast_eq_none (by simpa using hnd.1)
        simp [lookupLast, this]
      · have := ih hnd.2 hs
        simp only [lookupLast, this]

theorem stepMapLookup_name {w : WorkflowDefinition} {x : String} {s : WorkflowStep}
    (h : stepMapLookup w x = some s) : s ∈ w.steps ∧ s.name = x :=
  lookupLast_mem h

theorem stepMapLookup_of_mem {w : WorkflowDefinition} (hnd : (stepNames w).Nodup)
    {s : WorkflowStep} (hs : s ∈ w.steps) : stepMapLookup w s.name = some s :=
  lookupLast_of_mem hnd hs

theorem stepMapLookup_isSome {w : WorkflowDefinition} {x : String}
    (h : x ∈ stepNames w) : ∃ s, stepMapLookup w x = some s :=
  lookupLast_isSome h

theorem stepDepends_eq {w : WorkflowDefinition} {x : String} {s : WorkflowStep}
    (h : stepMapLookup w x = some s) : stepDepends w x = s.depends := by
  simp [stepDepends, h]

theorem stepDepends_eq_nil {w : WorkflowDefinition} {x : String}
    (h : x ∉ stepNames w) : stepDepends w x = [] := by
  simp [stepDepends, stepMapLookup, lookupLast_eq_none h]

theorem findUnknownDep_none_iff (names : List String) (l : List WorkflowStep) :
    findUnknownDep names l = none ↔ ∀ s ∈ l, ∀ d ∈ s.depends, d ∈ names := by
  induction l with
  | nil => simp [findUnknownDep]
  | cons s rest ih =>
      simp only [findUnknownDep]
      cases hf : s.depends.find? (fun d => !(names.contains d)) with
      | some d =>
          have hd := List.find?_some hf
          have hmem := List.mem_of_find?_eq_some hf
          simp only [Bool.not_eq_eq_eq_not, Bool.not_true] at hd
          refine iff_of_false (by simp) ?_
          intro hall
          have hin := hall s (List.mem_cons_self s rest) d hmem
          simp [hin] at hd
      | none =>
          rw [ih]
          constructor
          · intro hall t ht d hd
            rcases List.mem_cons.mp ht with rfl | ht
            · by_contra hnot
              have := List.find?_eq_none.mp hf d hd
              simp at this
              exact hnot this
            · exact hall t ht d hd
          · intro hall t ht d hd
            exact hall t (List.mem_cons_of_mem s ht) d hd

theorem findUnknownDep_some {names : List String} {l : List WorkflowStep}
    {a b : String} (h : findUnknownDep names l = some (a, b)) :
    ∃ s ∈ l, s.name = a ∧ b ∈ s.depends ∧ b ∉ names := by
  induction l with
  | nil => simp [findUnknownDep] at h
  | cons s rest ih =>
      simp only [findUnknownDep] at h
      cases hf : s.depends.find? (fun d => !(names.contains d)) with
      | some d =>
          rw [hf] at h
          injection h with h
          have h1 : s.name = a := congrArg Prod.fst h
          have h2 : d = b := congrArg Prod.snd h
          have hd := List.find?_some hf
          have hmem := List.mem_of_find?_eq_some hf
          simp only [Bool.not_eq_eq_eq_not, Bool.not_true] at hd
          have hd' : d ∉ names := by simp at hd; exact hd
          exact ⟨s, List.mem_cons_self s rest, h1, h2 ▸ hmem, h2 ▸ hd'⟩
      | none =>
          rw [hf] at h
          obtain ⟨t, ht, h1, h2, h3⟩ := ih h
          exact ⟨t, List.mem_cons_of_mem s ht, h1, h2, h3⟩

theorem mem_dependentsList {p y : String} {l : List WorkflowStep}
    (h : y ∈ dependentsList p l) : y ∈ l.map WorkflowStep.name := by
  induction l with
  | nil => simp [dependentsList] at h
  | cons s rest ih =>
      simp only [dependentsList, List.mem_append, List.mem_map] at h
      rcases h with h | h
      · obtain ⟨d, _, hy⟩ := h
        simp [← hy]
      · simp [ih h]

theorem count_dependentsList_of_not_mem {p x : String} {l : List WorkflowStep}
    (h : x ∉ l.map WorkflowStep.name) : (dependentsList p l).count x = 0 := by
  rw [List.count_eq_zero]
  exact fun hmem => h (mem_dependentsList hmem)

theorem count_eq_length_filter_beq (l : List String) (a : String) :
    l.count a = (l.filter (fun d => d == a)).length := by
  simp [List.count, List.countP_eq_length_filter]

theorem count_dependentsList (p x : String) (l : List WorkflowStep)
    (hnd : (l.map WorkflowStep.name).Nodup) :
    (dependentsList p l).count x =
      match lookupLast l x with
      | some s => s.depends.count p
      | none => 0 := by
  induction l with
  | nil => rfl
  | cons s rest ih =>
      simp only [List.map_cons, List.nodup_cons] at hnd
      simp only [dependentsList, List.count_append, lookupLast]
      by_cases hx : x = s.name
      · rw [hx]
        have h1 : lookupLast rest s.name = none := lookupLast_eq_none hnd.1
        have h2 : (dependentsList p rest).count s.name = 0 :=
          count_dependentsList_of_not_mem hnd.1
        rw [h1, h2]
        have h4 : ((s.depends.filter (fun d => d == p)).map (fun _ => s.name)).count s.name
            = s.depends.count p := by
          rw [List.count_eq_length.mpr (by simp), List.length_map,
            ← count_eq_length_filter_beq]
        rw [h4]
        simp
      · have h3 : ((s.depends.filter (fun d => d == p)).map
            (fun _ => s.name)).count x = 0 := by
          rw [List.count_eq_zero]
          intro hmem
          obtain ⟨d, _, hy⟩ := List.mem_map.mp hmem
          exact hx hy.symm
        rw [h3, ih hnd.2, Nat.zero_add]
        cases hr : lookupLast rest x with
        | some u => rfl
        | none => rw [if_neg (fun he => hx he.symm)]

/-! The dependent-processing fold of the Kahn loop: value, queue
membership and queue distinctness characterizations. -/

theorem foldDeg_val (L : List String) :
    ∀ (st : (String → Int) × List String) (y : String),
      ((L.foldl degStep st).1) y = st.1 y - L.count y := by
  induction L with
  | nil => intro st y; simp
  | cons d L ih =>
      intro st y
      rw [List.foldl_cons, ih]
      by_cases hy : y = d
      · subst hy
        simp only [degStep, List.count_cons, beq_self_eq_true, if_true, eq_self_iff_true]
        push_cast
        ring
      · have hyd : ¬(d = y) := fun he => hy he.symm
        simp only [degStep, List.count_cons, if_neg hy]
        rw [if_neg (by simp [hyd] : ¬((d == y) = true))]
        push_cast
        ring

theorem foldDeg_mem (L : List String) :
    ∀ (st : (String → Int) × List String) (y : String),
      y ∈ (L.foldl degStep st).2 ↔
        y ∈ st.2 ∨ (1 ≤ st.1 y ∧ st.1 y ≤ (L.count y : Int)) := by
  induction L with
  | nil =>
      intro st y
      simp only [List.foldl_nil, List.count_nil, Nat.cast_zero]
      constructor
      · exact Or.inl
      · rintro (h | h)
        · exact h
        · omega
  | cons d L ih =>
      intro st y
      rw [List.foldl_cons, ih]
      by_cases hy : y = d
      · subst hy
        simp only [degStep, List.count_cons, beq_self_eq_true, if_true, eq_self_iff_true]
        by_cases hz : st.1 y - 1 = 0
        · rw [if_pos hz]
          simp only [List.mem_append, List.mem_singleton]
          push_cast
          constructor
          · intro _
            right
            omega
          · intro _
            left
            right
            trivial
        · rw [if_neg hz]
          by_cases hm : y ∈ st.2
          · simp [hm]
          · simp only [hm, false_or]
            push_cast
            omega
      · have hyd : ¬(d = y) := fun he => hy he.symm
        simp only [degStep, List.count_cons, if_neg hy]
        rw [if_neg (by simp [hyd] : ¬((d == y) = true))]
        by_cases hz : st.1 d - 1 = 0
        · rw [if_pos hz]
          simp [hy]
        · rw [if_neg hz]
          simp [hy]

theorem foldDeg_nodup (L : List String) :
    ∀ (st : (String → Int) × List String), st.2.Nodup → (∀ y ∈ st.2, st.1 y ≤ 0) →
      (L.foldl degStep st).2.Nodup ∧
        ∀ y ∈ (L.foldl degStep st).2, ((L.foldl degStep st).1) y ≤ 0 := by
  induction L with
  | nil => intro st h1 h2; exact ⟨h1, h2⟩
  | cons d L ih =>
      intro st h1 h2
      rw [List.foldl_cons]
      apply ih
      · simp only [degStep]
        by_cases hz : st.1 d - 1 = 0
        · rw [if_pos hz]
          rw [List.nodup_append]
          refine ⟨h1, List.nodup_singleton d, ?_⟩
          intro y hy hyd
          simp only [List.mem_singleton] at hyd
          subst hyd
          have := h2 y hy
          omega
        · rw [if_neg hz]
          exact h1
      · intro y hy
        simp only [degStep] at hy ⊢
        by_cases hz : st.1 d - 1 = 0
        · rw [if_pos hz] at hy
          rcases List.mem_append.mp hy with hy | hy
          · by_cases hyd : y = d
            · subst hyd; rw [if_pos rfl]; omega
            · rw [if_neg hyd]; exact h2 y hy
          · simp only [List.mem_singleton] at hy
            subst hy
            rw [if_pos rfl]
            omega
        · rw [if_neg hz] at hy
          by_cases hyd : y = d
          · subst hyd
            rw [if_pos rfl]
            have := h2 y hy
            omega
          · rw [if_neg hyd]
            exact h2 y hy

theorem length_filter_snoc_mem (P : List String) (p : String) (hp : p ∉ P) :
    ∀ l : List String,
      (l.filter (fun d => decide (d ∉ P))).length =
        (l.filter (fun d => decide (d ∉ P ++ [p]))).length + l.count p := by
  intro l
  induction l with
  | nil => rfl
  | cons d l ih =>
      simp only [List.filter_cons, List.count_cons]
      by_cases hd : d = p
      · subst hd
        rw [if_pos (by simpa using hp), if_neg (by simp)]
        simp only [List.length_cons, beq_self_eq_true, if_pos]
        omega
      · by_cases hdP : d ∈ P
        · rw [if_neg (by simpa using hdP), if_neg (by simp [hdP]),
            if_neg (by simpa using hd)]
          omega
        · rw [if_pos (by simpa using hdP), if_pos (by simp [hdP, hd]),
            if_neg (by simpa using hd)]
          simp only [List.length_cons]
          omega

/-! The Kahn-loop invariant: establishment and preservation. -/

theorem respectsDeps_append {l : List WorkflowStep} {s : WorkflowStep}
    (h : respectsDeps l) (hd : ∀ d ∈ s.depends, d ∈ l.map WorkflowStep.name) :
    respectsDeps (l ++ [s]) := by
  intro i hi d hdi
  have hlen : (l ++ [s]).length = l.length + 1 := by simp
  by_cases hil : i < l.length
  · rw [List.get_append i hil] at hdi
    obtain ⟨j, hj, hji, hname⟩ := h i hil d hdi
    exact ⟨j, by omega, hji, by rw [List.get_append j hj]; exact hname⟩
  · have hieq : i = l.length := by omega
    subst hieq
    rw [List.get_of_append (rfl : l ++ [s] = l ++ s :: []) rfl] at hdi
    obtain ⟨t, ht, hname⟩ := List.mem_map.mp (hd d hdi)
    obtain ⟨j, hget⟩ := List.mem_iff_get.mp ht
    refine ⟨j.val, by omega, j.isLt, ?_⟩
    rw [List.get_append j.val j.isLt]
    rw [show l.get ⟨j.val, j.isLt⟩ = l.get j from rfl, hget]
    exact hname

theorem KInv_init (w : WorkflowDefinition) (seed : List String) (HS : SeedOk w seed) :
    KInv w (seed.filter (fun n => inDeg0 w n == 0)) (inDeg0 w) [] := by
  obtain ⟨hnd, hsub, hcov⟩ := HS
  refine ⟨by simp, ?_, hnd.filter _, by simp, by simp, ?_, ?_, ?_, by simp, ?_⟩
  · intro x hx
    exact hsub x (List.mem_of_mem_filter hx)
  · intro x
    simp [inDeg0, remDeg]
  · intro x hx
    have := List.of_mem_filter hx
    simpa using this
  · intro x hx h0
    left
    rw [List.mem_filter]
    exact ⟨hcov x hx, by simpa using h0⟩
  · intro i hi
    simp at hi

theorem KInv_step (w : WorkflowDefinition) (HN : (stepNames w).Nodup)
    (p : String) (rest : List String) (inDeg : String → Int) (order : List WorkflowStep)
    (hinv : KInv w (p :: rest) inDeg order) :
    KInv w ((dependentsOf w p).foldl degStep (inDeg, rest)).2
      ((dependentsOf w p).foldl degStep (inDeg, rest)).1
      (order ++ [(stepMapLookup w p).getD zeroStep]) := by
  obtain ⟨hEnt, hQsub, hQnd, hPnd, hDisj, hDeg, hQ0, hCov, hPdeps, hResp⟩ := hinv
  have hp : p ∈ stepNames w := hQsub p (List.mem_cons_self p rest)
  obtain ⟨s, hs⟩ := stepMapLookup_isSome hp
  have hsname : s.name = p := (stepMapLookup_name hs).2
  have hsmem : s ∈ w.steps := (stepMapLookup_name hs).1
  have hgetD : (stepMapLookup w p).getD zeroStep = s := by rw [hs]; rfl
  have hmapP : (order ++ [(stepMapLookup w p).getD zeroStep]).map WorkflowStep.name =
      order.map WorkflowStep.name ++ [p] := by
    rw [hgetD, List.map_append, List.map_singleton, hsname]
  have hcnt : ∀ x, (dependentsOf w p).count x = (stepDepends w x).count p := by
    intro x
    rw [dependentsOf, count_dependentsList p x w.steps HN]
    cases h : lookupLast w.steps x <;> simp [stepDepends, stepMapLookup, h]
  have hval : ∀ x, ((dependentsOf w p).foldl degStep (inDeg, rest)).1 x =
      inDeg x - ((stepDepends w x).count p : Int) := by
    intro x
    rw [foldDeg_val (dependentsOf w p) (inDeg, rest) x, hcnt x]
  have hpP : p ∉ order.map WorkflowStep.name := hDisj p (List.mem_cons_self p rest)
  have hrestnd : rest.Nodup := (List.nodup_cons.mp hQnd).2
  have hpnotrest : p ∉ rest := (List.nodup_cons.mp hQnd).1
  have hrest0 : ∀ y ∈ rest, inDeg y ≤ 0 := fun y hy =>
    le_of_eq (hQ0 y (List.mem_cons_of_mem p hy))
  have hnodup2 := foldDeg_nodup (dependentsOf w p) (inDeg, rest) hrestnd hrest0
  have hdp : ∀ d ∈ stepDepends w p, d ∈ order.map WorkflowStep.name := by
    have h0 : inDeg p = 0 := hQ0 p (List.mem_cons_self p rest)
    rw [hDeg p] at h0
    unfold remDeg at h0
    intro d hd
    by_contra hnot
    have hmem : d ∈ (stepDepends w p).filter
        (fun d => decide (d ∉ order.map WorkflowStep.name)) :=
      List.mem_filter.mpr ⟨hd, by simpa using hnot⟩
    have hlen := List.length_pos_of_mem hmem
    omega
  have hPzero : ∀ x ∈ order.map WorkflowStep.name, inDeg x = 0 := by
    intro x hx
    obtain ⟨t, ht, htn⟩ := List.mem_map.mp hx
    have hlook : stepMapLookup w x = some t := htn ▸ hEnt t ht
    rw [hDeg x]
    unfold remDeg
    rw [stepDepends_eq hlook]
    rw [List.filter_eq_nil.mpr (fun d hd => by simpa using hPdeps t ht d hd)]
    rfl
  have hdeg' : ∀ x, ((dependentsOf w p).foldl degStep (inDeg, rest)).1 x =
      remDeg w (order.map WorkflowStep.name ++ [p]) x := by
    intro x
    rw [hval x, hDeg x]
    unfold remDeg
    have := length_filter_snoc_mem (order.map WorkflowStep.name) p hpP (stepDepends w x)
    rw [count_eq_length_filter_beq] at this ⊢
    omega
  refine ⟨?_, ?_, hnodup2.1, ?_, ?_, ?_, ?_, ?_, ?_, ?_⟩
  · intro t ht
    rcases List.mem_append.mp ht with ht | ht
    · exact hEnt t ht
    · simp only [List.mem_singleton] at ht
      subst ht
      rw [hgetD, hsname]
      exact hs
  · intro x hx
    rcases (foldDeg_mem (dependentsOf w p) (inDeg, rest) x).mp hx with hx | hx
    · exact hQsub x (List.mem_cons_of_mem p hx)
    · have hcpos : 0 < (dependentsOf w p).count x := by
        have := hx.2
        omega
      exact mem_dependentsList (List.count_pos_iff.mp hcpos)
  · rw [hmapP, List.nodup_append]
    exact ⟨hPnd, List.nodup_singleton p, fun y hy hyp => by
      simp only [List.mem_singleton] at hyp
      subst hyp
      exact hpP hy⟩
  · intro x hx
    rw [hmapP, List.mem_append, List.mem_singleton]
    rintro (hxP | hxp)
    · rcases (foldDeg_mem (dependentsOf w p) (inDeg, rest) x).mp hx with hx | hx
      · exact hDisj x (List.mem_cons_of_mem p hx) hxP
      · have hx' : 1 ≤ inDeg x ∧ inDeg x ≤ ((dependentsOf w p).count x : Int) := hx
        have := hPzero x hxP
        omega
    · subst hxp
      rcases (foldDeg_mem (dependentsOf w x) (inDeg, rest) x).mp hx with hx | hx
      · exact hpnotrest hx
      · have hx' : 1 ≤ inDeg x ∧ inDeg x ≤ ((dependentsOf w x).count x : Int) := hx
        have h0 : inDeg x = 0 := hQ0 x (List.mem_cons_self x rest)
        omega
  · intro x
    rw [hdeg' x, hmapP]
  · intro x hx
    have hle := hnodup2.2 x hx
    have hge : 0 ≤ ((dependentsOf w p).foldl degStep (inDeg, rest)).1 x := by
      rw [hdeg' x]
      unfold remDeg
      positivity
    omega
  · intro x hx h0
    rw [hmapP, List.mem_append, List.mem_singleton]
    by_cases hxq : x ∈ ((dependentsOf w p).foldl degStep (inDeg, rest)).2
    · exact Or.inl hxq
    · right
      by_cases hxp : x = p
      · exact Or.inr hxp
      · left
        by_contra hxP
        have hnotrest : x ∉ rest := fun hr =>
          hxq ((foldDeg_mem (dependentsOf w p) (inDeg, rest) x).mpr (Or.inl hr))
        have hne : inDeg x ≠ 0 := by
          intro h00
          rcases hCov x hx h00 with hc | hc
          · rcases List.mem_cons.mp hc with rfl | hc
            · exact hxp rfl
            · exact hnotrest hc
          · exact hxP hc
        have hpos : 0 < inDeg x := by
          have : 0 ≤ inDeg x := by rw [hDeg x]; unfold remDeg; positivity
          omega
        have hcond : 1 ≤ inDeg x ∧ inDeg x ≤ ((dependentsOf w p).count x : Int) := by
          constructor
          · omega
          · rw [hcnt x]
            have := hval x
            omega
        exact hxq ((foldDeg_mem (dependentsOf w p) (inDeg, rest) x).mpr (Or.inr hcond))
  · intro t ht d hd
    rw [hmapP, List.mem_append]
    rcases List.mem_append.mp ht with ht | ht
    · exact Or.inl (hPdeps t ht d hd)
    · simp only [List.mem_singleton] at ht
      subst ht
      rw [hgetD] at hd
      left
      exact hdp d (by rwa [stepDepends_eq hs])
  · rw [hgetD]
    apply respectsDeps_append hResp
    intro d hd
    exact hdp d (by rwa [stepDepends_eq hs])

/-- The terminal-state reasoning shared by the two exits of the Kahn loop:
from the invariant, the accumulated order is made of genuine distinct
steps in valid topological order, and when additionally every unprocessed
name keeps an unprocessed dependency (queue empty or provably exhausted),
the completeness conclusion follows. -/
theorem KInv_final (w : WorkflowDefinition) (queue : List String) (inDeg : String → Int)
    (order : List WorkflowStep) (hinv : KInv w queue inDeg order) (hq : queue = []) :
    ∀ x ∈ stepNames w, x ∉ order.map WorkflowStep.name →
      ∃ d ∈ stepDepends w x, d ∉ order.map WorkflowStep.name := by
  obtain ⟨hEnt, hQsub, hQnd, hPnd, hDisj, hDeg, hQ0, hCov, hPdeps, hResp⟩ := hinv
  intro x hx hxP
  have hne : inDeg x ≠ 0 := by
    intro h0
    rcases hCov x hx h0 with hc | hc
    · rw [hq] at hc; simp at hc
    · exact hxP hc
  rw [hDeg x] at hne
  unfold remDeg at hne
  have hpos : 0 < ((stepDepends w x).filter
      (fun d => decide (d ∉ order.map WorkflowStep.name))).length := by omega
  obtain ⟨d, hd⟩ := List.exists_mem_of_length_pos hpos
  have := List.mem_filter.mp hd
  exact ⟨d, this.1, by simpa using this.2⟩

theorem kahnLoop_master (w : WorkflowDefinition) (HN : (stepNames w).Nodup) :
    ∀ fuel : Nat, ∀ queue inDeg order, KInv w queue inDeg order →
      (stepNames w).length ≤ fuel + order.length →
      (∀ s ∈ kahnLoop w fuel queue inDeg order, stepMapLookup w s.name = some s) ∧
      ((kahnLoop w fuel queue inDeg order).map WorkflowStep.name).Nodup ∧
      respectsDeps (kahnLoop w fuel queue inDeg order) ∧
      (∀ x ∈ stepNames w, x ∉ (kahnLoop w fuel queue inDeg order).map WorkflowStep.name →
        ∃ d ∈ stepDepends w x,
          d ∉ (kahnLoop w fuel queue inDeg order).map WorkflowStep.name) := by
  intro fuel
  induction fuel with
  | zero =>
      intro queue inDeg order hinv hlen
      obtain ⟨hEnt, hQsub, hQnd, hPnd, hDisj, hDeg, hQ0, hCov, hPdeps, hResp⟩ := hinv
      have hq : queue = [] := by
        cases hqc : queue with
        | nil => rfl
        | cons a as =>
            exfalso
            have hPsub : order.map WorkflowStep.name ⊆ stepNames w := by
              intro y hy
              obtain ⟨t, ht, rfl⟩ := List.mem_map.mp hy
              exact List.mem_map_of_mem WorkflowStep.name (stepMapLookup_name (hEnt t ht)).1
            have hsub : List.Subperm (order.map WorkflowStep.name) (stepNames w) :=
              List.subperm_of_subset hPnd hPsub
            have hperm : List.Perm (order.map WorkflowStep.name) (stepNames w) :=
              hsub.perm_of_length_le (by simpa using hlen)
            have ha : a ∈ order.map WorkflowStep.name :=
              hperm.symm.subset (hQsub a (hqc ▸ List.mem_cons_self a as))
            exact hDisj a (hqc ▸ List.mem_cons_self a as) ha
      show _ ∧ _ ∧ _ ∧ _
      exact ⟨hEnt, hPnd, hResp,
        KInv_final w queue inDeg order
          ⟨hEnt, hQsub, hQnd, hPnd, hDisj, hDeg, hQ0, hCov, hPdeps, hResp⟩ hq⟩
  | succ fuel ih =>
      intro queue inDeg order hinv hlen
      cases queue with
      | nil =>
          obtain ⟨hEnt, hQsub, hQnd, hPnd, hDisj, hDeg, hQ0, hCov, hPdeps, hResp⟩ := hinv
          show _ ∧ _ ∧ _ ∧ _
          exact ⟨hEnt, hPnd, hResp,
            KInv_final w [] inDeg order
              ⟨hEnt, hQsub, hQnd, hPnd, hDisj, hDeg, hQ0, hCov, hPdeps, hResp⟩ rfl⟩
      | cons p rest =>
          have hstep := KInv_step w HN p rest inDeg order hinv
          have hlen' : (stepNames w).length ≤
              fuel + (order ++ [(stepMapLookup w p).getD zeroStep]).length := by
            simp only [List.length_append, List.length_singleton]
            omega
          exact ih ((dependentsOf w p).foldl degStep (inDeg, rest)).2
            ((dependentsOf w p).foldl degStep (inDeg, rest)).1
            (order ++ [(stepMapLookup w p).getD zeroStep]) hstep hlen'

/-- Soundness of a successful resolution: an `ok` result is a permutation
of the workflow's steps, in valid topological order, made of registered
steps. -/
theorem getExecutionOrder_ok_spec (w : WorkflowDefinition) (seed : List String)
    (order : List WorkflowStep) (HN : (stepNames w).Nodup) (HS : SeedOk w seed)
    (hord : GetExecutionOrder w seed = Except.ok order) :
    List.Perm order w.steps ∧ respectsDeps order ∧
      (∀ s ∈ order, stepMapLookup w s.name = some s) := by
  cases hfind : findUnknownDep (stepNames w) w.steps with
  | some sd =>
      exfalso
      have : GetExecutionOrder w seed = Except.error (.unknownDep sd.1 sd.2) := by
        unfold GetExecutionOrder
        rw [hfind]
      rw [this] at hord
      cases hord
  | none =>
      have heq : GetExecutionOrder w seed =
          (if (kahnLoop w w.steps.length (seed.filter (fun n => inDeg0 w n == 0))
              (inDeg0 w) []).length = w.steps.length
            then Except.ok (kahnLoop w w.steps.length
              (seed.filter (fun n => inDeg0 w n == 0)) (inDeg0 w) [])
            else Except.error ResolveError.cycle) := by
        unfold GetExecutionOrder
        rw [hfind]
      rw [heq] at hord
      by_cases hlen : (kahnLoop w w.steps.length (seed.filter (fun n => inDeg0 w n == 0))
          (inDeg0 w) []).length = w.steps.length
      · rw [if_pos hlen] at hord
        injection hord with hord
        subst hord
        have hmaster := kahnLoop_master w HN w.steps.length
          (seed.filter (fun n => inDeg0 w n == 0)) (inDeg0 w) [] (KInv_init w seed HS)
          (by simp [stepNames])
        obtain ⟨hEnt, hPnd, hResp, _⟩ := hmaster
        refine ⟨?_, hResp, hEnt⟩
        have hndup := List.Nodup.of_map WorkflowStep.name hPnd
        have hsub : kahnLoop w w.steps.length (seed.filter (fun n => inDeg0 w n == 0))
            (inDeg0 w) [] ⊆ w.steps :=
          fun s hs => (stepMapLookup_name (hEnt s hs)).1
        exact (List.subperm_of_subset hndup hsub).perm_of_length_le (le_of_eq hlen.symm)
      · rw [if_neg hlen] at hord
        cases hord

/-- A ranking function that strictly decreases along every dependency edge
witnesses acyclicity. -/
theorem acyclic_of_rank (w : WorkflowDefinition) (rank : String → Nat)
    (h : ∀ x y, dependsOn w x y → rank y < rank x) : Acyclic w := by
  have hTG : ∀ a b, Relation.TransGen (dependsOn w) a b → rank b < rank a := by
    intro a b hab
    induction hab with
    | single h1 => exact h _ _ h1
    | tail _ h1 ih => exact lt_trans (h _ _ h1) ih
  intro x hx
  exact lt_irrefl _ (hTG x x hx)

/-- In a finite set of names in which every element has an `r`-successor
inside the set, `r` admits a cycle (pigeonhole along the successor
iteration). -/
theorem exists_transGen_self (r : String → String → Prop) (S : List String) (x₀ : String)
    (hx₀ : x₀ ∈ S) (hstep : ∀ x ∈ S, ∃ y, y ∈ S ∧ r x y) :
    ∃ x, Relation.TransGen r x x := by
  choose f hfS hfr using hstep
  let g : Nat → {x : String // x ∈ S} :=
    fun n => Nat.rec (motive := fun _ => {x : String // x ∈ S})
      ⟨x₀, hx₀⟩ (fun _ p => ⟨f p.1 p.2, hfS p.1 p.2⟩) n
  have hgr : ∀ n, r (g n).1 (g (n + 1)).1 := by
    intro n
    exact hfr (g n).1 (g n).2
  have hchain : ∀ i j : Nat, i < j → Relation.TransGen r (g i).1 (g j).1 := by
    intro i j
    induction j with
    | zero => omega
    | succ j ihj =>
        intro hij
        rcases Nat.lt_succ_iff_lt_or_eq.mp hij with h | h
        · exact (ihj h).tail (hgr j)
        · subst h
          exact Relation.TransGen.single (hgr i)
  have hmaps : ∀ n ∈ Finset.range (S.length + 1), (g n).1 ∈ S.toFinset :=
    fun n _ => List.mem_toFinset.mpr (g n).2
  have hcard : S.toFinset.card < (Finset.range (S.length + 1)).card := by
    rw [Finset.card_range]
    exact Nat.lt_succ_of_le (List.toFinset_card_le S)
  obtain ⟨i, hi, j, hj, hij, heq⟩ :=
    Finset.exists_ne_map_eq_of_card_lt_of_maps_to hcard hmaps
  rcases Nat.lt_or_ge i j with h | h
  · have hc := hchain i j h
    rw [← heq] at hc
    exact ⟨(g i).1, hc⟩
  · have h' : j < i := Nat.lt_of_le_of_ne h (Ne.symm hij)
    have hc := hchain j i h'
    rw [heq] at hc
    exact ⟨(g j).1, hc⟩

/-- A complete topological order of the workflow's names yields
acyclicity, by ranking each name with its index in the order. -/
theorem acyclic_of_topo (w : WorkflowDefinition) (order : List WorkflowStep)
    (HN : (stepNames w).Nodup)
    (hEnt : ∀ s ∈ order, stepMapLookup w s.name = some s)
    (hPnd : (order.map WorkflowStep.name).Nodup)
    (hResp : respectsDeps order)
    (hAll : ∀ x ∈ stepNames w, x ∈ order.map WorkflowStep.name) : Acyclic w := by
  apply acyclic_of_rank w (fun x => (order.map WorkflowStep.name).indexOf x)
  rintro x y ⟨s, hsmem, rfl, hy⟩
  have hx : s.name ∈ stepNames w := List.mem_map_of_mem WorkflowStep.name hsmem
  obtain ⟨idx, hidx⟩ := List.mem_iff_get.mp (hAll _ hx)
  have hidx' : idx.val < order.length := by
    have := idx.isLt
    simpa using this
  have hgetname : (order.get ⟨idx.val, hidx'⟩).name = s.name := by
    rw [← hidx, List.get_map WorkflowStep.name]
  have hlk : stepMapLookup w s.name = some (order.get ⟨idx.val, hidx'⟩) := by
    rw [← hgetname]
    exact hEnt _ (List.get_mem order idx.val hidx')
  have hseq : s = order.get ⟨idx.val, hidx'⟩ := by
    have h2 := stepMapLookup_of_mem HN hsmem
    rw [h2] at hlk
    exact Option.some_inj.mp hlk
  obtain ⟨j, hj, hji, hjname⟩ := hResp idx.val hidx' y (by rw [← hseq]; exact hy)
  have hjm : j < (order.map WorkflowStep.name).length := by simpa using hj
  have hrx : (order.map WorkflowStep.name).indexOf s.name = idx.val := by
    rw [← hidx]
    exact List.get_indexOf hPnd idx
  have hry : (order.map WorkflowStep.name).indexOf y = j := by
    have hgy : (order.map WorkflowStep.name).get ⟨j, hjm⟩ = y := by
      rw [List.get_map WorkflowStep.name]
      exact hjname
    rw [← hgy]
    exact List.get_indexOf hPnd ⟨j, hjm⟩
  rw [hrx, hry]
  exact hji

/-- C1: for a workflow with distinct step names (a data-model invariant)
whose every declared dependency names an existing step and whose
dependency relation is acyclic, `GetExecutionOrder` returns without error
a permutation of the workflow's steps in which every declared dependency
of a step occurs at a strictly earlier index (for any possible Go map
iteration order of the seeding loop). -/
theorem c1_topological_order (w : WorkflowDefinition) (seed : List String)
    (HN : (stepNames w).Nodup)
    (HV : ∀ s ∈ w.steps, ∀ d ∈ s.depends, d ∈ stepNames w)
    (HA : Acyclic w) (HS : SeedOk w seed) :
    ∃ order, GetExecutionOrder w seed = Except.ok order ∧
      List.Perm order w.steps ∧ respectsDeps order := by
  have hfind := (findUnknownDep_none_iff (stepNames w) w.steps).mpr HV
  have hmaster := kahnLoop_master w HN w.steps.length
    (seed.filter (fun n => inDeg0 w n == 0)) (inDeg0 w) [] (KInv_init w seed HS)
    (by simp [stepNames])
  obtain ⟨hEnt, hPnd, hResp, hComp⟩ := hmaster
  set res := kahnLoop w w.steps.length (seed.filter (fun n => inDeg0 w n == 0))
    (inDeg0 w) [] with hres
  have hall : ∀ x ∈ stepNames w, x ∈ res.map WorkflowStep.name := by
    by_contra hnot
    push_neg at hnot
    obtain ⟨x₀, hx₀n, hx₀P⟩ := hnot
    have hstep : ∀ x ∈ (stepNames w).filter
        (fun n => decide (n ∉ res.map WorkflowStep.name)),
        ∃ y, y ∈ (stepNames w).filter
          (fun n => decide (n ∉ res.map WorkflowStep.name)) ∧ dependsOn w x y := by
      intro x hx
      have hxn := (List.mem_filter.mp hx).1
      have hxP : x ∉ res.map WorkflowStep.name := by
        have := (List.mem_filter.mp hx).2
        simpa using this
      obtain ⟨d, hd, hdP⟩ := hComp x hxn hxP
      obtain ⟨t, ht⟩ := stepMapLookup_isSome hxn
      have hdept : stepDepends w x = t.depends := stepDepends_eq ht
      have htx : t.name = x := (stepMapLookup_name ht).2
      have htmem : t ∈ w.steps := (stepMapLookup_name ht).1
      have hdt : d ∈ t.depends := by rwa [hdept] at hd
      have hdn : d ∈ stepNames w := HV t htmem d hdt
      exact ⟨d, List.mem_filter.mpr ⟨hdn, by simpa using hdP⟩, ⟨t, htmem, htx, hdt⟩⟩
    obtain ⟨z, hz⟩ := exists_transGen_self (dependsOn w) _ x₀
      (List.mem_filter.mpr ⟨hx₀n, by simpa using hx₀P⟩) hstep
    exact HA z hz
  have hPsub : res.map WorkflowStep.name ⊆ stepNames w := by
    intro y hy
    obtain ⟨t, ht, rfl⟩ := List.mem_map.mp hy
    exact List.mem_map_of_mem WorkflowStep.name (stepMapLookup_name (hEnt t ht)).1
  have hperm2 : List.Perm (res.map WorkflowStep.name) (stepNames w) :=
    (List.subperm_of_subset hPnd hPsub).perm_of_length_le
      (List.subperm_of_subset HN hall).length_le
  have hlen : res.length = w.steps.length := by
    have h1 := hperm2.length_eq
    simp only [List.length_map, stepNames] at h1
    simpa using h1
  refine ⟨res, ?_, ?_, hResp⟩
  · have heq : GetExecutionOrder w seed =
        (if res.length = w.steps.length then Except.ok res
          else Except.error ResolveError.cycle) := by
      unfold GetExecutionOrder
      rw [hfind]
    rw [heq, if_pos hlen]
  · have hndup := List.Nodup.of_map WorkflowStep.name hPnd
    have hsub : res ⊆ w.steps := fun s hs => (stepMapLookup_name (hEnt s hs)).1
    exact (List.subperm_of_subset hndup hsub).perm_of_length_le (le_of_eq hlen.symm)

/-- Witness for C1 at the two-step workflow `a ← b`. -/
theorem c1_topological_order_witness :
    (stepNames exW).Nodup ∧
    (∀ s ∈ exW.steps, ∀ d ∈ s.depends, d ∈ stepNames exW) ∧
    Acyclic exW ∧ SeedOk exW ["a", "b"] ∧
    (∃ order, GetExecutionOrder exW ["a", "b"] = Except.ok order ∧
      List.Perm order exW.steps ∧ respectsDeps order) := by
  have hA : Acyclic exW := by
    apply acyclic_of_rank exW (fun n => if n = "a" then 0 else 1)
    rintro x y ⟨s, hs, rfl, hy⟩
    simp only [exW, exStepA, exStepB, List.mem_cons, List.not_mem_nil, or_false] at hs
    rcases hs with rfl | rfl
    · simp at hy
    · simp only [List.mem_cons, List.not_mem_nil, or_false] at hy
      subst hy
      decide
  exact ⟨by decide, by decide, hA, by decide,
    c1_topological_order exW ["a", "b"] (by decide) (by decide) hA (by decide)⟩

/-- C6: a structurally invalid workflow always makes `GetExecutionOrder`
return an error, never an order: a dependency on a missing name yields an
unknown-dependency error naming a genuine offending (step, dependency)
pair; with valid references, any cyclic dependency relation yields the
cycle error; and a returned order is never truncated — it is a permutation
of all the workflow's steps. -/
theorem c6_structural_errors (w : WorkflowDefinition) (seed : List String) :
    ((∃ s ∈ w.steps, ∃ d ∈ s.depends, d ∉ stepNames w) →
      ∃ a b, GetExecutionOrder w seed = Except.error (ResolveError.unknownDep a b) ∧
        ∃ s ∈ w.steps, s.name = a ∧ b ∈ s.depends ∧ b ∉ stepNames w) ∧
    ((stepNames w).Nodup → (∀ s ∈ w.steps, ∀ d ∈ s.depends, d ∈ stepNames w) →
      SeedOk w seed → ¬ Acyclic w →
      GetExecutionOrder w seed = Except.error ResolveError.cycle) ∧
    (∀ order, (stepNames w).Nodup → SeedOk w seed →
      GetExecutionOrder w seed = Except.ok order → List.Perm order w.steps) := by
  refine ⟨?_, ?_, ?_⟩
  · intro hex
    cases hfind : findUnknownDep (stepNames w) w.steps with
    | none =>
        exfalso
        have hval := (findUnknownDep_none_iff _ _).mp hfind
        obtain ⟨s, hs, d, hd, hdn⟩ := hex
        exact hdn (hval s hs d hd)
    | some ab =>
        refine ⟨ab.1, ab.2, ?_, findUnknownDep_some (by rw [hfind])⟩
        unfold GetExecutionOrder
        rw [hfind]
  · intro HN HV HS hnA
    have hfind := (findUnknownDep_none_iff (stepNames w) w.steps).mpr HV
    set res := kahnLoop w w.steps.length (seed.filter (fun n => inDeg0 w n == 0))
      (inDeg0 w) [] with hres
    have heq : GetExecutionOrder w seed =
        (if res.length = w.steps.length then Except.ok res
          else Except.error ResolveError.cycle) := by
      unfold GetExecutionOrder
      rw [hfind]
    by_cases hlen : res.length = w.steps.length
    · exfalso
      apply hnA
      have hmaster := kahnLoop_master w HN w.steps.length
        (seed.filter (fun n => inDeg0 w n == 0)) (inDeg0 w) [] (KInv_init w seed HS)
        (by simp [stepNames])
      obtain ⟨hEnt, hPnd, hResp, _⟩ := hmaster
      apply acyclic_of_topo w res HN hEnt hPnd hResp
      intro x hx
      have hPsub : res.map WorkflowStep.name ⊆ stepNames w := by
        intro y hy
        obtain ⟨t, ht, rfl⟩ := List.mem_map.mp hy
        exact List.mem_map_of_mem WorkflowStep.name (stepMapLookup_name (hEnt t ht)).1
      have hlen2 : (stepNames w).length ≤ (res.map WorkflowStep.name).length := by
        simp only [List.length_map, hlen, stepNames]
        simp
      have hperm := (List.subperm_of_subset hPnd hPsub).perm_of_length_le hlen2
      exact hperm.symm.subset hx
    · rw [heq, if_neg hlen]
  · intro order HN HS hord
    exact (getExecutionOrder_ok_spec w seed order HN HS hord).1

/-- Witness for C6: the missing-dependency workflow, the self-dependent
workflow, and a successful resolution. -/
theorem c6_structural_errors_witness :
    (∃ s ∈ exWMiss.steps, ∃ d ∈ s.depends, d ∉ stepNames exWMiss) ∧
    (∃ a b, GetExecutionOrder exWMiss ["a", "b"]
        = Except.error (ResolveError.unknownDep a b) ∧
      ∃ s ∈ exWMiss.steps, s.name = a ∧ b ∈ s.depends ∧ b ∉ stepNames exWMiss) ∧
    ¬ Acyclic exWSelf ∧
    GetExecutionOrder exWSelf ["x"] = Except.error ResolveError.cycle ∧
    List.Perm [exStepA, exStepB] exW.steps := by
  have hnA : ¬ Acyclic exWSelf := by
    intro hA
    exact hA "x" (Relation.TransGen.single
      ⟨{ name := "x", depends := ["x"] }, by simp [exWSelf], rfl, by simp⟩)
  refine ⟨by decide, (c6_structural_errors exWMiss ["a", "b"]).1 (by decide), hnA,
    (c6_structural_errors exWSelf ["x"]).2.1 (by decide) (by decide) (by decide) hnA,
    (c6_structural_errors exW ["a", "b"]).2.2 [exStepA, exStepB] (by decide) (by decide) rfl⟩

end Taskkit
